import Mathlib

/-!
# Dense matrix class and multiplication kernels of `hw3/tsaiet/_matrix.cpp`

A shallow embedding of the C++ class `Matrix` and of the two kernels
`multiply_naive` and `multiply_tile`.

Modelling decisions.

* `double` is an arbitrary type `α` with `0`, `+`, `*` and a boolean `==`
  (`!=` is its negation).  No algebraic law is assumed, so every statement
  holds for IEEE arithmetic, where `+` is not associative and `==` is not
  reflexive on NaN.
* `size_t` is `Nat`: no product or offset wraps around.  That is the source's
  arithmetic for shapes with `nrow * ncol < 2^64`, in particular for every
  live object (`valid`: its buffer holds `nrow * ncol` cells); the statements
  about `size()` and `index` themselves carry `valid` or that bound.
* `m_buffer` is a pointer.  The free store is modelled explicitly (`Heap`):
  a block of cells per address, an allocation counter, and the indeterminate
  contents that `new double[n]` hands out.  A `Matrix` is the C++ object
  (two sizes and a pointer); every member function takes and returns the heap.
* Reading or writing outside a block is undefined behaviour in the source.
  The model is total there (a read yields `0`, a write does nothing); all
  statements below concern accesses that are in range.
* Allocation never fails in the model (`std::bad_alloc` is not modelled).
* The loops `for (x = 0; x < bound; x += tsize)` are modelled with fuel,
  `none` meaning that the fuel ran out; for `tsize >= 1` fuel above the bound
  suffices.  For `tsize = 0` a loop that is entered has undefined behaviour in
  C++, and nothing is stated about the result then beyond the absence of a
  thrown exception.  The unit-stride loops always terminate and are total.
* For the statement about the range of the element accesses the tiled kernel
  is given a second time with a record of its accesses
  (`multiply_tile_traced`); dropping the record gives `multiply_tile` back.
* Where a statement needs facts of arithmetic (the product with the identity
  matrix) they are hypotheses about the elements involved; concrete values
  are integers, or values of `Dbl`, a fragment of double precision with the
  infinities and NaN.
-/

namespace Hw3

/-! ## The free store -/

/-- The free store: `mem a` is the block of cells at address `a`, addresses
below `next` have been handed out, and `uninit a i` is the indeterminate value
found in cell `i` of a block newly allocated at address `a`. -/
structure Heap (α : Type) where
  mem : Nat → List α
  next : Nat
  uninit : Nat → Nat → α

namespace Heap

variable {α : Type}

/-- Contents of `p[i]`: the pointer `p` is `none` for `nullptr`. -/
def read [Zero α] (H : Heap α) (p : Option Nat) (i : Nat) : α :=
  match p with
  | none => 0
  | some a => (H.mem a).getD i 0

/-- Effect of `p[i] = v`. -/
def write (H : Heap α) (p : Option Nat) (i : Nat) (v : α) : Heap α :=
  match p with
  | none => H
  | some a => { H with mem := Function.update H.mem a ((H.mem a).set i v) }

/-- Effect of `new double[n]`: a block of `n` cells with indeterminate contents
at an address that was never handed out before. -/
def alloc (H : Heap α) (n : Nat) : Nat × Heap α :=
  (H.next,
   { H with mem := Function.update H.mem H.next ((List.range n).map (H.uninit H.next)),
            next := H.next + 1 })

/-- Effect of `delete[] a`: the block has no cell left. -/
def free (H : Heap α) (a : Nat) : Heap α :=
  { H with mem := Function.update H.mem a [] }

end Heap

/-! ## Loops -/

/-- Runs `body i`, `body (i+1)`, ... for `n` consecutive indices. -/
def loopN {σ : Type} (body : Nat → σ → σ) : Nat → Nat → σ → σ
  | 0, _, s => s
  | n + 1, i, s => loopN body n (i + 1) (body i s)

/-- The loop `for (size_t i = lo; i < hi; ++i) body`. -/
def forRange {σ : Type} (lo hi : Nat) (body : Nat → σ → σ) (s : σ) : σ :=
  loopN body (hi - lo) lo s

/-- The loop `for (size_t x = x0; x < bound; x += step) body`, with fuel:
`none` when the fuel runs out before the loop condition fails.  This is the
loop of the source for `step >= 1`.  With `step = 0` a loop that is entered
makes no progress and has no side effect, which C++ leaves undefined; what the
model returns there predicts nothing, and no statement below depends on it. -/
def forStride {σ : Type} (body : Nat → σ → Option σ) (bound step : Nat) :
    Nat → Nat → σ → Option σ
  | 0, _, _ => none
  | fuel + 1, x, s =>
    if x < bound then
      (body x s).bind (fun s1 => forStride body bound step fuel (x + step) s1)
    else some s

/-! ## The class `Matrix` -/

/-- The only exception type thrown by the source. -/
inductive Exn where
  | out_of_range (what : String)
deriving DecidableEq, Repr

/-- The data members of a `Matrix` object; `m_buffer = none` is `nullptr`. -/
structure Matrix where
  m_nrow : Nat
  m_ncol : Nat
  m_buffer : Option Nat
deriving DecidableEq, Repr

namespace Matrix

variable {α : Type}

/-- Member `index(row, col)`.  The source computes `row + col * m_nrow` in
`size_t`; at a valid position of a shape with `m_nrow * m_ncol < 2^64`, as
every object with a buffer of that many cells has, nothing wraps and this is
the value computed.  The statements below use it on such positions only. -/
def index (self : Matrix) (row col : Nat) : Nat :=
  row + col * self.m_nrow

/-- Member `nrow()`. -/
def nrow (self : Matrix) : Nat := self.m_nrow

/-- Member `ncol()`. -/
def ncol (self : Matrix) : Nat := self.m_ncol

/-- Member `size()`.  The source computes the product in `size_t`; this is its
value when `m_nrow * m_ncol < 2^64`, as for every object with a buffer of that
many cells.  The statements about it carry `valid` or that bound. -/
def size (self : Matrix) : Nat := self.m_nrow * self.m_ncol

/-- Member `operator()(row, col) const`: the element read. -/
def get [Zero α] (self : Matrix) (H : Heap α) (row col : Nat) : α :=
  H.read self.m_buffer (self.index row col)

/-- Member `operator()(row, col)` used as an assignment target:
`(*this)(row, col) = v`. -/
def set (self : Matrix) (H : Heap α) (row col : Nat) (v : α) : Heap α :=
  H.write self.m_buffer (self.index row col) v

/-- Member `buffer(i) const`. -/
def buffer [Zero α] (self : Matrix) (H : Heap α) (i : Nat) : α :=
  H.read self.m_buffer i

/-- Member `buffer_vector()`: the vector built from the cells
`m_buffer[0]`, ..., `m_buffer[size()-1]`. -/
def buffer_vector [Zero α] (self : Matrix) (H : Heap α) : List α :=
  (List.range self.size).map (fun i => H.read self.m_buffer i)

/-- The statement `if (m_buffer) { delete[] m_buffer; }`. -/
def release (self : Matrix) (H : Heap α) : Heap α :=
  match self.m_buffer with
  | some a => H.free a
  | none => H

/-- Member `reset_buffer(nrow, ncol)`. -/
def reset_buffer (self : Matrix) (H : Heap α) (nrow ncol : Nat) : Matrix × Heap α :=
  let H1 := self.release H
  let nelement := nrow * ncol
  if nelement ≠ 0 then
    let (a, H2) := H1.alloc nelement
    ({ m_nrow := nrow, m_ncol := ncol, m_buffer := some a }, H2)
  else
    ({ m_nrow := nrow, m_ncol := ncol, m_buffer := none }, H1)

/-- Constructor `Matrix(nrow, ncol)`. -/
def ctor (H : Heap α) (nrow ncol : Nat) : Matrix × Heap α :=
  reset_buffer { m_nrow := nrow, m_ncol := ncol, m_buffer := none } H nrow ncol

/-- Member `operator=(std::vector<double> const & vec)`.  The state carried by
either outcome is the object and the heap at that moment. -/
def assign_vec [Zero α] (self : Matrix) (H : Heap α) (vec : List α) :
    Except (Exn × Matrix × Heap α) (Matrix × Heap α) :=
  if self.size ≠ vec.length then
    .error (Exn.out_of_range "number of elements mismatch", self, H)
  else
    let s := forRange 0 self.m_nrow (fun i s =>
      forRange 0 self.m_ncol (fun j (s : Nat × Heap α) =>
        (s.1 + 1, self.set s.2 i j (vec.getD s.1 0))) s) (0, H)
    .ok (self, s.2)

/-- Constructor `Matrix(nrow, ncol, vec)`. -/
def ctor_vec [Zero α] (H : Heap α) (nrow ncol : Nat) (vec : List α) :
    Except (Exn × Matrix × Heap α) (Matrix × Heap α) :=
  let (self, H1) :=
    reset_buffer { m_nrow := nrow, m_ncol := ncol, m_buffer := none } H nrow ncol
  assign_vec self H1 vec

/-- The element-by-element copy loop shared by the copy constructor and the
copy assignment. -/
def copy_loop [Zero α] (self : Matrix) (H : Heap α) (other : Matrix) : Heap α :=
  forRange 0 self.m_nrow (fun i H =>
    forRange 0 self.m_ncol (fun j H => self.set H i j (other.get H i j)) H) H

/-- Copy constructor `Matrix(Matrix const & other)`. -/
def copy_ctor [Zero α] (H : Heap α) (other : Matrix) : Matrix × Heap α :=
  let (self, H1) :=
    reset_buffer { m_nrow := other.m_nrow, m_ncol := other.m_ncol, m_buffer := none } H
      other.m_nrow other.m_ncol
  (self, copy_loop self H1 other)

/-- Member `operator=(Matrix const & other)`; `same` is the outcome of the
address test `this == &other`. -/
def assign [Zero α] (self : Matrix) (H : Heap α) (other : Matrix) (same : Bool) :
    Matrix × Heap α :=
  if same then (self, H)
  else
    let (self1, H1) :=
      if self.m_nrow ≠ other.m_nrow ∨ self.m_ncol ≠ other.m_ncol then
        reset_buffer self H other.m_nrow other.m_ncol
      else (self, H)
    (self1, copy_loop self1 H1 other)

/-- Move constructor `Matrix(Matrix && other)`: returns the new object, the
moved-from object and the heap. -/
def move_ctor (H : Heap α) (other : Matrix) : Matrix × Matrix × Heap α :=
  let (self, H1) :=
    reset_buffer { m_nrow := other.m_nrow, m_ncol := other.m_ncol, m_buffer := none } H 0 0
  ({ m_nrow := other.m_nrow, m_ncol := other.m_ncol, m_buffer := other.m_buffer },
   { m_nrow := self.m_nrow, m_ncol := self.m_ncol, m_buffer := self.m_buffer }, H1)

/-- Member `operator=(Matrix && other)`: returns the target, the moved-from
object and the heap; `same` is the outcome of `this == &other`. -/
def move_assign (self : Matrix) (H : Heap α) (other : Matrix) (same : Bool) :
    Matrix × Matrix × Heap α :=
  if same then (self, other, H)
  else
    let (self1, H1) := reset_buffer self H 0 0
    ({ m_nrow := other.m_nrow, m_ncol := other.m_ncol, m_buffer := other.m_buffer },
     { m_nrow := self1.m_nrow, m_ncol := self1.m_ncol, m_buffer := self1.m_buffer }, H1)

/-- Destructor `~Matrix()`. -/
def dtor (self : Matrix) (H : Heap α) : Matrix × Heap α :=
  reset_buffer self H 0 0

/-- The comparison loop of `operator==`: `n` cells starting at offset `i`. -/
def eq_loop [Zero α] [BEq α] (H : Heap α) (p q : Option Nat) : Nat → Nat → Bool
  | 0, _ => true
  | n + 1, i => if H.read p i != H.read q i then false else eq_loop H p q n (i + 1)

/-- Member `operator==(const Matrix & rhs) const`. -/
def eq [Zero α] [BEq α] (self : Matrix) (H : Heap α) (rhs : Matrix) : Bool :=
  let r := rhs.m_nrow
  let c := rhs.m_ncol
  if self.m_nrow ≠ r ∨ self.m_ncol ≠ c then false
  else eq_loop H self.m_buffer rhs.m_buffer (r * c) 0

/-- Class invariant of a live object: the buffer is a block that was handed
out and holds `m_nrow * m_ncol` cells, or there is no buffer and no element. -/
def valid (self : Matrix) (H : Heap α) : Prop :=
  match self.m_buffer with
  | none => self.m_nrow * self.m_ncol = 0
  | some a => a < H.next ∧ (H.mem a).length = self.m_nrow * self.m_ncol

instance (self : Matrix) (H : Heap α) : Decidable (self.valid H) := by
  unfold valid
  cases self.m_buffer <;> infer_instance

/-- Two objects own different buffers. -/
def separate (self other : Matrix) : Prop :=
  self.m_buffer = none ∨ self.m_buffer ≠ other.m_buffer

instance (self other : Matrix) : Decidable (self.separate other) := by
  unfold separate
  infer_instance

end Matrix

/-! ## The kernels -/

/-- Message of the exception thrown by both kernels. -/
def shape_msg : String :=
  "the number of first matrix column differs from that of second matrix row"

/-- Function `multiply_naive(mat1, mat2)`.  Returning `ret` by value hands
its buffer over to the caller (move or elision), so the object returned has
the fields of `ret`. -/
def multiply_naive {α : Type} [Zero α] [Add α] [Mul α]
    (H : Heap α) (mat1 mat2 : Matrix) : Except (Exn × Heap α) (Matrix × Heap α) :=
  if mat1.ncol ≠ mat2.nrow then
    .error (Exn.out_of_range shape_msg, H)
  else
    let (ret, H1) := Matrix.ctor H mat1.nrow mat2.ncol
    let H2 := forRange 0 ret.nrow (fun i H =>
      forRange 0 ret.ncol (fun k H =>
        let v := forRange 0 mat1.ncol (fun j v => v + mat1.get H i j * mat2.get H j k) 0
        ret.set H i k v) H) H1
    .ok (ret, H2)

/-- Function `multiply_tile(mat1, mat2, tsize)`; `none` when the fuel runs out
in one of the three tile loops. -/
def multiply_tile {α : Type} [Zero α] [Add α] [Mul α]
    (fuel : Nat) (H : Heap α) (mat1 mat2 : Matrix) (tsize : Nat) :
    Option (Except (Exn × Heap α) (Matrix × Heap α)) :=
  if mat1.ncol ≠ mat2.nrow then
    some (.error (Exn.out_of_range shape_msg, H))
  else
    let r := mat1.nrow
    let c := mat2.ncol
    let k := mat1.ncol
    let (ret, H1) := Matrix.ctor H r c
    (forStride (fun rt H =>
      let rt_size := min (rt + tsize) r
      forStride (fun ct H =>
        let ct_size := min (ct + tsize) c
        forStride (fun kt H =>
          let kt_size := min (kt + tsize) k
          some (forRange rt rt_size (fun i H =>
            forRange ct ct_size (fun j H =>
              let v := forRange kt kt_size
                (fun k v => v + mat1.get H i k * mat2.get H k j) 0
              ret.set H i j v) H) H))
          k tsize fuel 0 H)
        c tsize fuel 0 H)
      r tsize fuel 0 H1).map (fun H2 => .ok (ret, H2))

/-! ## Notions used to state and prove the properties -/

namespace Heap

variable {α : Type}

/-- Heap `H1` differs from `H` at most in the contents of the cells of block
`a`: same allocation counter, same blocks elsewhere, same number of cells. -/
def sameExcept (H H1 : Heap α) (a : Nat) : Prop :=
  H1.next = H.next ∧ H1.uninit = H.uninit ∧ (∀ b, b ≠ a → H1.mem b = H.mem b) ∧
    (H1.mem a).length = (H.mem a).length

end Heap

namespace Matrix

variable {α : Type}

/-- Between the heaps `H0` and `H1` only block `a` changed; the elements of
`ret` at the positions in `S` now hold `g`, the other elements are as before. -/
def Upd [Zero α] (ret : Matrix) (a : Nat) (H0 H1 : Heap α)
    (S : Nat → Nat → Prop) (g : Nat → Nat → α) : Prop :=
  H0.sameExcept H1 a ∧ ∀ i j, i < ret.m_nrow → j < ret.m_ncol →
    (S i j → ret.get H1 i j = g i j) ∧ (¬ S i j → ret.get H1 i j = ret.get H0 i j)

/-- The elements in row-major order, one list per row. -/
def rows [Zero α] (self : Matrix) (H : Heap α) : List (List α) :=
  (List.range self.m_nrow).map (fun i =>
    (List.range self.m_ncol).map (fun j => self.get H i j))

end Matrix

/-- The sum of `A(i, j) * B(j, k)` over `j = 0, ..., A.ncol - 1`, accumulated
from zero in ascending order of `j`. -/
def dot {α : Type} [Zero α] [Add α] [Mul α] (H : Heap α) (A B : Matrix) (i k : Nat) : α :=
  (List.range A.m_ncol).foldl (fun v j => v + A.get H i j * B.get H j k) 0

/-- The sum of `A(i, k) * B(k, j)` over `k = lo, ..., hi - 1`, accumulated from
zero in ascending order of `k`. -/
def tile_sum {α : Type} [Zero α] [Add α] [Mul α] (H : Heap α) (A B : Matrix)
    (lo hi i j : Nat) : α :=
  (List.range' lo (hi - lo)).foldl (fun v k => v + A.get H i k * B.get H k j) 0

/-- First index of the last tile of the range `0 .. K-1` cut into tiles of
width `tsize`. -/
def lastStart (K tsize : Nat) : Nat := tsize * ((K - 1) / tsize)

/-- Rows of the matrix returned by a kernel, when it returned one. -/
def result_rows {α : Type} [Zero α] (r : Except (Exn × Heap α) (Matrix × Heap α)) :
    Option (List (List α)) :=
  match r with
  | .ok (m, H) => some (m.rows H)
  | .error _ => none

/-! ## Example data

The operands of the end-to-end scenarios, stored column-major as the class
stores them: `exA` is the 2 x 3 matrix with rows (1, 2, 3), (4, 5, 6) and `exB`
the 3 x 2 matrix with rows (7, 8), (9, 10), (11, 12). -/

/-- A heap holding the two example operands; newly allocated cells hold 77. -/
def exHeap : Heap Int :=
  { mem := fun a => if a = 0 then [1, 4, 2, 5, 3, 6] else if a = 1 then [7, 9, 11, 8, 10, 12] else [],
    next := 2,
    uninit := fun _ _ => 77 }

/-- The 2 x 3 example operand. -/
def exA : Matrix := ⟨2, 3, some 0⟩

/-- The 3 x 2 example operand. -/
def exB : Matrix := ⟨3, 2, some 1⟩

/-- The elements of `exA` listed row-major. -/
def exV : List Int := [1, 2, 3, 4, 5, 6]

/-- A flat sequence too short for a 2 x 3 matrix. -/
def exShort : List Int := [7, 8, 9]

/-- A heap with nothing allocated; newly allocated cells hold 1. -/
def emptyHeap : Heap Int :=
  { mem := fun _ => [], next := 0, uninit := fun _ _ => 1 }

/-! ## Further example data -/

/-- A heap holding the 2 x 2 identity matrix and the 2 x 2 matrix with rows
(5, 6), (7, 8). -/
def idHeap : Heap Int :=
  { mem := fun a => if a = 0 then [1, 0, 0, 1] else if a = 1 then [5, 7, 6, 8] else [],
    next := 2,
    uninit := fun _ _ => 77 }

/-- The 2 x 2 identity matrix in `idHeap`. -/
def idI : Matrix := ⟨2, 2, some 0⟩

/-- The 2 x 2 right operand in `idHeap`. -/
def idB : Matrix := ⟨2, 2, some 1⟩

/-- A heap holding an `R x K` and a `K x C` matrix whose elements are all 1. -/
def onesHeap (R K C : Nat) : Heap Int :=
  { mem := fun a =>
      if a = 0 then List.replicate (R * K) 1
      else if a = 1 then List.replicate (K * C) 1 else [],
    next := 2,
    uninit := fun _ _ => 0 }

/-! ## A fragment of double precision -/

/-- The values of a `double` needed to evaluate the kernels on special values:
the integers (taken as exactly representable, the sign of zero left out), the
two infinities and NaN. -/
inductive Dbl where
  | fin (z : Int)
  | pinf
  | ninf
  | nan
deriving DecidableEq, Repr

namespace Dbl

/-- The IEEE 754 product on these values: NaN is absorbing, zero times an
infinity is NaN, otherwise the signs multiply. -/
def mul : Dbl → Dbl → Dbl
  | nan, _ => nan
  | _, nan => nan
  | fin a, fin b => fin (a * b)
  | fin a, pinf => if a = 0 then nan else if 0 < a then pinf else ninf
  | fin a, ninf => if a = 0 then nan else if 0 < a then ninf else pinf
  | pinf, fin b => if b = 0 then nan else if 0 < b then pinf else ninf
  | ninf, fin b => if b = 0 then nan else if 0 < b then ninf else pinf
  | pinf, pinf => pinf
  | pinf, ninf => ninf
  | ninf, pinf => ninf
  | ninf, ninf => pinf

/-- The IEEE 754 sum on these values: NaN is absorbing, the sum of the two
infinities is NaN, an infinity absorbs every finite value. -/
def add : Dbl → Dbl → Dbl
  | nan, _ => nan
  | _, nan => nan
  | fin a, fin b => fin (a + b)
  | fin _, pinf => pinf
  | fin _, ninf => ninf
  | pinf, fin _ => pinf
  | ninf, fin _ => ninf
  | pinf, pinf => pinf
  | ninf, ninf => ninf
  | pinf, ninf => nan
  | ninf, pinf => nan

instance : Zero Dbl := ⟨fin 0⟩

instance : One Dbl := ⟨fin 1⟩

instance : Add Dbl := ⟨add⟩

instance : Mul Dbl := ⟨mul⟩

end Dbl

/-- A heap holding the 2 x 2 identity matrix and the 2 x 2 matrix with rows
(5, 6), (7, 8), as doubles. -/
def idHeapD : Heap Dbl :=
  { mem := fun a =>
      if a = 0 then [Dbl.fin 1, Dbl.fin 0, Dbl.fin 0, Dbl.fin 1]
      else if a = 1 then [Dbl.fin 5, Dbl.fin 7, Dbl.fin 6, Dbl.fin 8] else [],
    next := 2,
    uninit := fun _ _ => Dbl.nan }

/-- A heap holding the 2 x 2 identity matrix and the 2 x 2 matrix with rows
(+infinity, 6), (2, 8). -/
def infHeap : Heap Dbl :=
  { mem := fun a =>
      if a = 0 then [Dbl.fin 1, Dbl.fin 0, Dbl.fin 0, Dbl.fin 1]
      else if a = 1 then [Dbl.pinf, Dbl.fin 2, Dbl.fin 6, Dbl.fin 8] else [],
    next := 2,
    uninit := fun _ _ => Dbl.nan }

/-! ## The tiled kernel with a record of its accesses -/

/-- One element access made by a kernel, with the row and the column handed to
`operator()`: a read of `mat1`, a read of `mat2`, or a write of the result. -/
inductive Access where
  | read1 (row col : Nat)
  | read2 (row col : Nat)
  | write (row col : Nat)
deriving DecidableEq, Repr

/-- The access stays inside the shape of the matrix it goes to; the result has
the shape `mat1.nrow x mat2.ncol`. -/
def Access.inRange (mat1 mat2 : Matrix) : Access → Prop
  | .read1 row col => row < mat1.m_nrow ∧ col < mat1.m_ncol
  | .read2 row col => row < mat2.m_nrow ∧ col < mat2.m_ncol
  | .write row col => row < mat1.m_nrow ∧ col < mat2.m_ncol

/-- Function `multiply_tile(mat1, mat2, tsize)` with a record of its element
accesses: the same loops, each `mat1(i,k)`, `mat2(k,j)` and `ret(i,j) = v`
appended to the list in the order of execution. -/
def multiply_tile_traced {α : Type} [Zero α] [Add α] [Mul α]
    (fuel : Nat) (H : Heap α) (mat1 mat2 : Matrix) (tsize : Nat) :
    Option (Except (Exn × Heap α) (Matrix × Heap α × List Access)) :=
  if mat1.ncol ≠ mat2.nrow then
    some (.error (Exn.out_of_range shape_msg, H))
  else
    let r := mat1.nrow
    let c := mat2.ncol
    let k := mat1.ncol
    let (ret, H1) := Matrix.ctor H r c
    (forStride (fun rt s =>
      let rt_size := min (rt + tsize) r
      forStride (fun ct s =>
        let ct_size := min (ct + tsize) c
        forStride (fun kt s =>
          let kt_size := min (kt + tsize) k
          some (forRange rt rt_size (fun i s =>
            forRange ct ct_size (fun j (s : Heap α × List Access) =>
              let vl := forRange kt kt_size
                (fun k (vl : α × List Access) =>
                  (vl.1 + mat1.get s.1 i k * mat2.get s.1 k j,
                   vl.2 ++ [Access.read1 i k, Access.read2 k j])) (0, s.2)
              (ret.set s.1 i j vl.1, vl.2 ++ [Access.write i j])) s) s))
          k tsize fuel 0 s)
        c tsize fuel 0 s)
      r tsize fuel 0 (H1, [])).map (fun s => .ok (ret, s.1, s.2))

/-! ## Loop rules -/

/-- Invariant rule for `loopN`. -/
theorem loopN_inv {σ : Type} (P : Nat → σ → Prop) (body : Nat → σ → σ) :
    ∀ (n i : Nat) (s : σ), P i s →
      (∀ t s, i ≤ t → t < i + n → P t s → P (t + 1) (body t s)) →
      P (i + n) (loopN body n i s) := by
  intro n
  induction n with
  | zero => intro i s h0 _; simpa [loopN] using h0
  | succ n ih =>
    intro i s h0 hstep
    have h1 : P (i + 1) (body i s) := hstep i s (le_refl _) (by omega) h0
    have := ih (i + 1) (body i s) h1 (fun t s ht1 ht2 hp => hstep t s (by omega) (by omega) hp)
    have e : i + (n + 1) = i + 1 + n := by omega
    rw [e]
    simpa [loopN] using this

/-- Invariant rule for the unit-stride loop: `P lo` holds before, each
iteration takes `P t` to `P (t + 1)`, so `P hi` holds after. -/
theorem forRange_inv {σ : Type} (P : Nat → σ → Prop) (body : Nat → σ → σ)
    (lo hi : Nat) (hle : lo ≤ hi) (s : σ) (h0 : P lo s)
    (hstep : ∀ t s, lo ≤ t → t < hi → P t s → P (t + 1) (body t s)) :
    P hi (forRange lo hi body s) := by
  have := loopN_inv P body (hi - lo) lo s h0
    (fun t s h1 h2 hp => hstep t s h1 (by omega) hp)
  have e : lo + (hi - lo) = hi := by omega
  rw [e] at this
  exact this

/-- A unit-stride loop whose range is empty does nothing. -/
theorem forRange_empty {σ : Type} (body : Nat → σ → σ) (lo hi : Nat) (h : hi ≤ lo) (s : σ) :
    forRange lo hi body s = s := by
  have : hi - lo = 0 := by omega
  simp [forRange, this, loopN]

theorem loopN_eq_foldl {σ : Type} (body : Nat → σ → σ) :
    ∀ (n i : Nat) (s : σ),
      loopN body n i s = (List.range' i n).foldl (fun s t => body t s) s := by
  intro n
  induction n with
  | zero => intro i s; simp [loopN]
  | succ n ih => intro i s; simp [loopN, List.range'_succ, ih]

/-- A unit-stride loop from 0 is a left fold over `0, ..., n - 1`. -/
theorem forRange_zero_eq_foldl {σ : Type} (body : Nat → σ → σ) (n : Nat) (s : σ) :
    forRange 0 n body s = (List.range n).foldl (fun s t => body t s) s := by
  simp [forRange, loopN_eq_foldl, List.range_eq_range']

/-- Invariant rule for the strided loop with a positive step: with fuel
above the bound the loop ends, at some `x1` past the bound where `P` holds. -/
theorem forStride_inv {σ : Type} (P : Nat → σ → Prop) (body : Nat → σ → Option σ)
    (bound step : Nat) (hstep : 1 ≤ step) :
    ∀ (fuel x : Nat) (s : σ), 0 < fuel → bound < x + fuel → P x s →
      (∀ t s, x ≤ t → t < bound → P t s → ∃ s1, body t s = some s1 ∧ P (t + step) s1) →
      ∃ s1 x1, forStride body bound step fuel x s = some s1 ∧ bound ≤ x1 ∧ P x1 s1 := by
  intro fuel
  induction fuel with
  | zero => intro x s h _ _; omega
  | succ fuel ih =>
    intro x s _ hf h0 hb
    by_cases hx : x < bound
    · obtain ⟨s1, hs1, hp1⟩ := hb x s (le_refl _) hx h0
      obtain ⟨s2, x2, h2, hx2, hp2⟩ := ih (x + step) s1 (by omega) (by omega) hp1
        (fun t s ht1 ht2 hp => hb t s (by omega) ht2 hp)
      exact ⟨s2, x2, by simp [forStride, hx, hs1, h2], hx2, hp2⟩
    · exact ⟨s, x, by simp [forStride, hx], by omega, h0⟩

namespace Heap
variable {α : Type}

theorem sameExcept_refl (H : Heap α) (a : Nat) : H.sameExcept H a :=
  ⟨rfl, rfl, fun _ _ => rfl, rfl⟩

theorem sameExcept_trans {H H1 H2 : Heap α} {a : Nat}
    (h1 : H.sameExcept H1 a) (h2 : H1.sameExcept H2 a) : H.sameExcept H2 a :=
  ⟨h2.1.trans h1.1, h2.2.1.trans h1.2.1,
   fun b hb => (h2.2.2.1 b hb).trans (h1.2.2.1 b hb), h2.2.2.2.trans h1.2.2.2⟩

theorem sameExcept_write (H : Heap α) (a i : Nat) (v : α) :
    H.sameExcept (H.write (some a) i v) a := by
  refine ⟨rfl, rfl, ?_, ?_⟩
  · intro b hb
    simp [write, Function.update_noteq hb]
  · simp [write]

theorem read_write_same [Zero α] (H : Heap α) (a i : Nat) (v : α)
    (hi : i < (H.mem a).length) : (H.write (some a) i v).read (some a) i = v := by
  simp [read, write, List.getD_eq_getElem?_getD, List.getElem?_set, hi]

theorem read_write_other [Zero α] (H : Heap α) (a i j : Nat) (v : α) (hij : i ≠ j) :
    (H.write (some a) i v).read (some a) j = H.read (some a) j := by
  simp [read, write, List.getD_eq_getElem?_getD, List.getElem?_set, hij]

theorem read_sameExcept [Zero α] {H H1 : Heap α} {a : Nat} (h : H.sameExcept H1 a)
    (p : Option Nat) (hp : p ≠ some a) (i : Nat) : H1.read p i = H.read p i := by
  cases p with
  | none => rfl
  | some b =>
    have hb : b ≠ a := fun e => hp (by rw [e])
    simp [read, h.2.2.1 b hb]

end Heap

/-- The offset of a valid position lies inside the buffer. -/
theorem index_lt {r c i j : Nat} (hi : i < r) (hj : j < c) : i + j * r < r * c := by
  have h1 : (j + 1) * r ≤ c * r := Nat.mul_le_mul_right r (by omega)
  have h2 : (j + 1) * r = j * r + r := by ring
  have h3 : c * r = r * c := Nat.mul_comm c r
  omega

/-- Two valid positions with the same offset are the same position. -/
theorem index_inj {r i j i1 j1 : Nat} (hi : i < r) (hi1 : i1 < r)
    (h : i + j * r = i1 + j1 * r) : i = i1 ∧ j = j1 := by
  have hr : 0 < r := by omega
  have e1 : (i + j * r) % r = i := by
    rw [Nat.add_mul_mod_self_right]; exact Nat.mod_eq_of_lt hi
  have e2 : (i1 + j1 * r) % r = i1 := by
    rw [Nat.add_mul_mod_self_right]; exact Nat.mod_eq_of_lt hi1
  have hii : i = i1 := by rw [← e1, ← e2, h]
  subst hii
  have : j * r = j1 * r := by omega
  exact ⟨rfl, Nat.eq_of_mul_eq_mul_right hr this⟩

namespace Matrix
variable {α : Type}

theorem Upd_refl [Zero α] (ret : Matrix) (a : Nat) (H : Heap α) (g : Nat → Nat → α) :
    ret.Upd a H H (fun _ _ => False) g :=
  ⟨Heap.sameExcept_refl H a, fun _ _ _ _ => ⟨fun h => h.elim, fun _ => rfl⟩⟩

theorem Upd_mono [Zero α] {ret : Matrix} {a : Nat} {H0 H1 : Heap α}
    {S T : Nat → Nat → Prop} {g : Nat → Nat → α} (h : ret.Upd a H0 H1 S g)
    (hST : ∀ i j, i < ret.m_nrow → j < ret.m_ncol → (S i j ↔ T i j)) :
    ret.Upd a H0 H1 T g :=
  ⟨h.1, fun i j hi hj =>
    ⟨fun ht => (h.2 i j hi hj).1 ((hST i j hi hj).2 ht),
     fun ht => (h.2 i j hi hj).2 (fun hs => ht ((hST i j hi hj).1 hs))⟩⟩

theorem Upd_trans [Zero α] {ret : Matrix} {a : Nat} {H0 H1 H2 : Heap α}
    {S T : Nat → Nat → Prop} {g : Nat → Nat → α}
    (h1 : ret.Upd a H0 H1 S g) (h2 : ret.Upd a H1 H2 T g) :
    ret.Upd a H0 H2 (fun i j => S i j ∨ T i j) g := by
  refine ⟨Heap.sameExcept_trans h1.1 h2.1, fun i j hi hj => ⟨?_, ?_⟩⟩
  · intro h
    by_cases ht : T i j
    · exact (h2.2 i j hi hj).1 ht
    · rw [(h2.2 i j hi hj).2 ht]
      exact (h1.2 i j hi hj).1 (h.resolve_right ht)
  · intro h
    rw [(h2.2 i j hi hj).2 (fun ht => h (Or.inr ht))]
    exact (h1.2 i j hi hj).2 (fun hs => h (Or.inl hs))

theorem Upd_over [Zero α] {ret : Matrix} {a : Nat} {H0 H1 H2 : Heap α}
    {T : Nat → Nat → Prop} {g1 g2 : Nat → Nat → α}
    (h1 : ret.Upd a H0 H1 T g1) (h2 : ret.Upd a H1 H2 T g2) :
    ret.Upd a H0 H2 T g2 := by
  refine ⟨Heap.sameExcept_trans h1.1 h2.1, fun i j hi hj => ⟨(h2.2 i j hi hj).1, ?_⟩⟩
  intro h
  rw [(h2.2 i j hi hj).2 h]
  exact (h1.2 i j hi hj).2 h

theorem get_set_same [Zero α] (ret : Matrix) (a : Nat) (hbuf : ret.m_buffer = some a)
    (H : Heap α) (hlen : (H.mem a).length = ret.m_nrow * ret.m_ncol)
    (i j : Nat) (hi : i < ret.m_nrow) (hj : j < ret.m_ncol) (v : α) :
    ret.get (ret.set H i j v) i j = v := by
  unfold get set
  rw [hbuf]
  exact Heap.read_write_same H a _ v (by rw [hlen]; exact index_lt hi hj)

theorem get_set_other [Zero α] (ret : Matrix) (a : Nat) (hbuf : ret.m_buffer = some a)
    (H : Heap α) (i j i1 j1 : Nat) (hi : i < ret.m_nrow) (hi1 : i1 < ret.m_nrow)
    (hne : ¬ (i1 = i ∧ j1 = j)) (v : α) :
    ret.get (ret.set H i j v) i1 j1 = ret.get H i1 j1 := by
  unfold get set
  rw [hbuf]
  apply Heap.read_write_other
  intro e
  have := index_inj hi hi1 e
  exact hne ⟨this.1.symm, this.2.symm⟩

/-- One element write extends the set of updated positions by that position. -/
theorem Upd_set [Zero α] {ret : Matrix} {a : Nat} (hbuf : ret.m_buffer = some a)
    {H0 H1 : Heap α} (hlen : (H0.mem a).length = ret.m_nrow * ret.m_ncol)
    {S : Nat → Nat → Prop} {g : Nat → Nat → α} (h : ret.Upd a H0 H1 S g)
    {i j : Nat} (hi : i < ret.m_nrow) (hj : j < ret.m_ncol) {v : α} (hv : v = g i j) :
    ret.Upd a H0 (ret.set H1 i j v) (fun i1 j1 => S i1 j1 ∨ (i1 = i ∧ j1 = j)) g := by
  have hlen1 : (H1.mem a).length = ret.m_nrow * ret.m_ncol := by rw [h.1.2.2.2, hlen]
  refine ⟨Heap.sameExcept_trans h.1 ?_, fun i1 j1 hi1 hj1 => ⟨?_, ?_⟩⟩
  · unfold set; rw [hbuf]; exact Heap.sameExcept_write H1 a _ v
  · intro hs
    by_cases he : i1 = i ∧ j1 = j
    · rw [he.1, he.2, get_set_same ret a hbuf H1 hlen1 i j hi hj v, hv]
    · rw [get_set_other ret a hbuf H1 i j i1 j1 hi hi1 he v]
      exact (h.2 i1 j1 hi1 hj1).1 (hs.resolve_right he)
  · intro hs
    have he : ¬ (i1 = i ∧ j1 = j) := fun e => hs (Or.inr e)
    rw [get_set_other ret a hbuf H1 i j i1 j1 hi hi1 he v]
    exact (h.2 i1 j1 hi1 hj1).2 (fun e => hs (Or.inl e))

/-- The inner loop of a fill: the columns `c0 .. c1 - 1` of row `i`. -/
theorem row_fill [Zero α] (ret : Matrix) (a : Nat) (hbuf : ret.m_buffer = some a)
    (H0 : Heap α) (hlen : (H0.mem a).length = ret.m_nrow * ret.m_ncol)
    (f : Heap α → Nat → Nat → α) (g : Nat → Nat → α)
    (hf : ∀ H1, H0.sameExcept H1 a → ∀ i j, f H1 i j = g i j)
    (S : Nat → Nat → Prop) (Hin : Heap α) (h : ret.Upd a H0 Hin S g)
    (i c0 c1 : Nat) (hi : i < ret.m_nrow) (hc : c1 ≤ ret.m_ncol) :
    ret.Upd a H0 (forRange c0 c1 (fun j H => ret.set H i j (f H i j)) Hin)
      (fun i1 j1 => S i1 j1 ∨ (i1 = i ∧ c0 ≤ j1 ∧ j1 < c1)) g := by
  by_cases hc01 : c0 ≤ c1
  · refine forRange_inv
      (fun j H => ret.Upd a H0 H (fun i1 j1 => S i1 j1 ∨ (i1 = i ∧ c0 ≤ j1 ∧ j1 < j)) g)
      _ c0 c1 hc01 Hin ?_ ?_
    · exact Upd_mono h (fun i1 j1 _ _ =>
        ⟨fun hs => Or.inl hs, fun hs => hs.elim id (fun e => by omega)⟩)
    · intro j H hj0 hj1 hP
      have := Upd_set hbuf hlen hP hi (show j < ret.m_ncol by omega) (hf H hP.1 i j)
      exact Upd_mono this (fun i1 j1 _ _ => by
        constructor
        · rintro ((hs | hs) | hs)
          · exact Or.inl hs
          · exact Or.inr ⟨hs.1, hs.2.1, by omega⟩
          · exact Or.inr ⟨hs.1, by omega, by omega⟩
        · rintro (hs | hs)
          · exact Or.inl (Or.inl hs)
          · by_cases e : j1 = j
            · exact Or.inr ⟨hs.1, e⟩
            · exact Or.inl (Or.inr ⟨hs.1, hs.2.1, by omega⟩))
  · rw [forRange_empty _ _ _ (by omega)]
    exact Upd_mono h (fun i1 j1 _ _ =>
      ⟨fun hs => Or.inl hs, fun hs => hs.elim id (fun e => by omega)⟩)

/-- A doubly nested fill loop: the elements of the rectangle
`r0 <= i < r1`, `c0 <= j < c1` receive `g`, the others keep their value. -/
theorem rect_fill [Zero α] (ret : Matrix) (a : Nat) (hbuf : ret.m_buffer = some a)
    (H0 : Heap α) (hlen : (H0.mem a).length = ret.m_nrow * ret.m_ncol)
    (f : Heap α → Nat → Nat → α) (g : Nat → Nat → α)
    (hf : ∀ H1, H0.sameExcept H1 a → ∀ i j, f H1 i j = g i j)
    (r0 r1 c0 c1 : Nat) (hr : r1 ≤ ret.m_nrow) (hc : c1 ≤ ret.m_ncol) :
    ret.Upd a H0
      (forRange r0 r1 (fun i H =>
        forRange c0 c1 (fun j H => ret.set H i j (f H i j)) H) H0)
      (fun i j => r0 ≤ i ∧ i < r1 ∧ c0 ≤ j ∧ j < c1) g := by
  by_cases hr01 : r0 ≤ r1
  · refine forRange_inv
      (fun i H => ret.Upd a H0 H (fun i1 j1 => r0 ≤ i1 ∧ i1 < i ∧ c0 ≤ j1 ∧ j1 < c1) g)
      _ r0 r1 hr01 H0 ?_ ?_
    · exact Upd_mono (Upd_refl ret a H0 g) (fun i j _ _ => ⟨fun h => h.elim, fun h => by omega⟩)
    · intro i H hi0 hi1 hP
      have := row_fill ret a hbuf H0 hlen f g hf _ H hP i c0 c1 (by omega) hc
      exact Upd_mono this (fun i1 j1 _ _ => by
        constructor
        · rintro (hs | hs)
          · exact ⟨hs.1, by omega, hs.2.2⟩
          · exact ⟨by omega, by omega, hs.2⟩
        · intro hs
          by_cases e : i1 = i
          · exact Or.inr ⟨e, hs.2.2⟩
          · exact Or.inl ⟨hs.1, by omega, hs.2.2⟩)
  · rw [forRange_empty _ _ _ (by omega)]
    exact Upd_mono (Upd_refl ret a H0 g) (fun i j _ _ => ⟨fun h => h.elim, fun h => by omega⟩)

theorem valid_ne_next {A : Matrix} {H : Heap α} (hA : A.valid H) :
    A.m_buffer ≠ some H.next := by
  intro e
  unfold valid at hA
  rw [e] at hA
  exact absurd hA.1 (lt_irrefl _)

theorem get_sameExcept [Zero α] {A : Matrix} {H H1 : Heap α} {a : Nat}
    (h : H.sameExcept H1 a) (hA : A.m_buffer ≠ some a) (i j : Nat) :
    A.get H1 i j = A.get H i j :=
  Heap.read_sameExcept h _ hA _

theorem get_alloc [Zero α] {A : Matrix} {H : Heap α} (hA : A.m_buffer ≠ some H.next)
    (n i j : Nat) : A.get (H.alloc n).2 i j = A.get H i j := by
  unfold get Heap.read
  cases hb : A.m_buffer with
  | none => rfl
  | some b =>
    have : b ≠ H.next := fun e => hA (by rw [hb, e])
    simp [Heap.alloc, Function.update_noteq this]

theorem ctor_zero (H : Heap α) (r c : Nat) (h : r * c = 0) :
    ctor H r c = (⟨r, c, none⟩, H) := by
  simp [ctor, reset_buffer, release, h]

theorem ctor_pos (H : Heap α) (r c : Nat) (h : r * c ≠ 0) :
    ctor H r c = (⟨r, c, some H.next⟩, (H.alloc (r * c)).2) := by
  simp [ctor, reset_buffer, release, h, Heap.alloc]

theorem alloc_length (H : Heap α) (n : Nat) :
    ((H.alloc n).2.mem H.next).length = n := by
  simp [Heap.alloc]

end Matrix

theorem multiply_naive_ok {α : Type} [Zero α] [Add α] [Mul α] (H : Heap α) (A B : Matrix)
    (h : A.m_ncol = B.m_nrow) :
    multiply_naive H A B = .ok ((Matrix.ctor H A.m_nrow B.m_ncol).1,
      forRange 0 (Matrix.ctor H A.m_nrow B.m_ncol).1.m_nrow (fun i H1 =>
        forRange 0 (Matrix.ctor H A.m_nrow B.m_ncol).1.m_ncol (fun k H1 =>
          (Matrix.ctor H A.m_nrow B.m_ncol).1.set H1 i k
            (forRange 0 A.m_ncol (fun j v => v + A.get H1 i j * B.get H1 j k) 0)) H1)
        (Matrix.ctor H A.m_nrow B.m_ncol).2) := by
  simp only [multiply_naive, Matrix.nrow, Matrix.ncol, h, ne_eq, not_true_eq_false, if_false]

/-- What `multiply_naive` returns on live operands of matching shapes. -/
theorem naive_run {α : Type} [Zero α] [Add α] [Mul α] (H : Heap α) (A B : Matrix)
    (hA : A.valid H) (hB : B.valid H) (h : A.m_ncol = B.m_nrow) :
    ∃ ret H1, multiply_naive H A B = .ok (ret, H1) ∧
      ret.m_nrow = A.m_nrow ∧ ret.m_ncol = B.m_ncol ∧
      ∀ i k, i < A.m_nrow → k < B.m_ncol → ret.get H1 i k = dot H A B i k := by
  refine ⟨_, _, multiply_naive_ok H A B h, ?_⟩
  by_cases hz : A.m_nrow * B.m_ncol = 0
  · rw [Matrix.ctor_zero H _ _ hz]
    refine ⟨rfl, rfl, ?_⟩
    intro i k hi hk
    have := Nat.mul_pos (Nat.zero_lt_of_lt hi) (Nat.zero_lt_of_lt hk)
    omega
  · rw [Matrix.ctor_pos H _ _ hz]
    refine ⟨rfl, rfl, ?_⟩
    intro i k hi hk
    have hfill := Matrix.rect_fill ⟨A.m_nrow, B.m_ncol, some H.next⟩ H.next rfl
      (H.alloc (A.m_nrow * B.m_ncol)).2 (Matrix.alloc_length H _)
      (fun H1 i k => forRange 0 A.m_ncol
        (fun j v => v + A.get H1 i j * B.get H1 j k) 0)
      (dot H A B)
      (fun H1 hs i k => by
        show forRange 0 A.m_ncol (fun j v => v + A.get H1 i j * B.get H1 j k) 0 = dot H A B i k
        rw [forRange_zero_eq_foldl, dot]
        congr 1
        funext v j
        rw [Matrix.get_sameExcept hs (Matrix.valid_ne_next hA),
          Matrix.get_sameExcept hs (Matrix.valid_ne_next hB),
          Matrix.get_alloc (Matrix.valid_ne_next hA),
          Matrix.get_alloc (Matrix.valid_ne_next hB)])
      0 A.m_nrow 0 B.m_ncol (le_refl _) (le_refl _)
    exact (hfill.2 i k hi hk).1 ⟨Nat.zero_le _, hi, Nat.zero_le _, hk⟩

theorem lastStart_of_exit {K tsize x : Nat} (hK : 1 ≤ K)
    (hdvd : tsize ∣ x) (hx : K ≤ x) (hlt : x < K + tsize) :
    x - tsize = lastStart K tsize := by
  obtain ⟨m, rfl⟩ := hdvd
  have hm : 1 ≤ m := by
    rcases Nat.eq_zero_or_pos m with h0 | h0
    · subst h0; omega
    · exact h0
  obtain ⟨n, rfl⟩ : ∃ n, m = n + 1 := ⟨m - 1, by omega⟩
  have e1 : tsize * (n + 1) - tsize = tsize * n := by rw [Nat.mul_succ]; omega
  have e2 : (K - 1) / tsize = n := by
    apply Nat.div_eq_of_lt_le
    · rw [Nat.mul_comm]; rw [Nat.mul_succ] at hlt; omega
    · rw [Nat.mul_comm]; omega
  rw [e1, lastStart, e2]

theorem lastStart_lt {K tsize : Nat} (hK : 1 ≤ K) : lastStart K tsize < K := by
  unfold lastStart
  have := Nat.mul_div_le (K - 1) tsize
  omega

theorem lastStart_single {K tsize : Nat} (h : K ≤ tsize) : lastStart K tsize = 0 := by
  unfold lastStart
  rcases Nat.eq_zero_or_pos K with h0 | h0
  · subst h0; simp
  · rw [Nat.div_eq_of_lt (by omega)]; simp

theorem lastStart_add {K tsize : Nat} (ht : 1 ≤ tsize) :
    K ≤ lastStart K tsize + tsize := by
  unfold lastStart
  have := Nat.lt_mul_div_succ (K - 1) (show 0 < tsize by omega)
  rw [Nat.mul_succ] at this
  omega

section TileLoops

variable {α : Type} [Zero α]
variable (ret : Matrix) (a : Nat) (hbuf : ret.m_buffer = some a)
variable (Hst : Heap α) (hlen : (Hst.mem a).length = ret.m_nrow * ret.m_ncol)
variable (f : Nat → Nat → Heap α → Nat → Nat → α) (g : Nat → Nat → Nat → Nat → α)
variable (hf : ∀ kt ks H1, Hst.sameExcept H1 a → ∀ i j, f kt ks H1 i j = g kt ks i j)
variable (K tsize fuel : Nat) (hK : 1 ≤ K) (ht : 1 ≤ tsize)

include hbuf hlen hf hK ht in
/-- The loop over the tiles of the shared dimension, for one output tile:
after it the output tile holds the partial sums of the last tile. -/
theorem tile_k (hfuel : K < fuel) (Hin : Heap α) (hs : Hst.sameExcept Hin a)
    (rt rs ct cs : Nat) (hrs : rs ≤ ret.m_nrow) (hcs : cs ≤ ret.m_ncol) :
    ∃ s1, forStride (fun kt H => some (forRange rt rs (fun i H =>
        forRange ct cs (fun j H =>
          ret.set H i j (f kt (min (kt + tsize) K) H i j)) H) H)) K tsize fuel 0 Hin = some s1 ∧
      ret.Upd a Hin s1 (fun i j => rt ≤ i ∧ i < rs ∧ ct ≤ j ∧ j < cs)
        (g (lastStart K tsize) K) := by
  have hfill : ∀ (kt : Nat) (H1 : Heap α), Hst.sameExcept H1 a →
      ret.Upd a H1 (forRange rt rs (fun i H =>
        forRange ct cs (fun j H =>
          ret.set H i j (f kt (min (kt + tsize) K) H i j)) H) H1)
        (fun i j => rt ≤ i ∧ i < rs ∧ ct ≤ j ∧ j < cs) (g kt (min (kt + tsize) K)) := by
    intro kt H1 h1
    exact Matrix.rect_fill ret a hbuf H1 (by rw [h1.2.2.2, hlen])
      (f kt (min (kt + tsize) K)) (g kt (min (kt + tsize) K))
      (fun H2 h2 => hf kt _ H2 (Heap.sameExcept_trans h1 h2)) rt rs ct cs hrs hcs
  obtain ⟨s1, x1, he, hx1, hdvd, _, hpos⟩ := forStride_inv
    (fun kt H1 => tsize ∣ kt ∧ (kt = 0 → H1 = Hin) ∧
      (0 < kt → kt < K + tsize ∧
        ret.Upd a Hin H1 (fun i j => rt ≤ i ∧ i < rs ∧ ct ≤ j ∧ j < cs)
          (g (kt - tsize) (min kt K))))
    (fun kt H => some (forRange rt rs (fun i H =>
        forRange ct cs (fun j H =>
          ret.set H i j (f kt (min (kt + tsize) K) H i j)) H) H))
    K tsize ht fuel 0 Hin (by omega) (by omega)
    ⟨Nat.dvd_zero _, fun _ => rfl, fun h => absurd h (lt_irrefl 0)⟩
    (fun t H1 _ htK hP => by
      refine ⟨_, rfl, Dvd.dvd.add hP.1 (Nat.dvd_refl _), fun h => by omega, fun _ => ⟨by omega, ?_⟩⟩
      have e : t + tsize - tsize = t := by omega
      rw [e]
      rcases Nat.eq_zero_or_pos t with h0 | h0
      · have := hP.2.1 h0
        subst this
        exact hfill t H1 hs
      · have h1 := (hP.2.2 h0).2
        exact Matrix.Upd_over h1 (hfill t H1 (Heap.sameExcept_trans hs h1.1)))
  refine ⟨s1, he, ?_⟩
  have h1 := hpos (by omega)
  have e := lastStart_of_exit hK hdvd hx1 h1.1
  have e2 : min x1 K = K := by omega
  rw [e, e2] at h1
  exact h1.2

include hbuf hlen hf hK ht in
/-- The loop over the column tiles, for one row tile. -/
theorem tile_c (hfuel : K < fuel) (c : Nat) (hc : c = ret.m_ncol) (hfc : c < fuel)
    (Hin : Heap α) (hs : Hst.sameExcept Hin a)
    (rt rs : Nat) (hrs : rs ≤ ret.m_nrow) :
    ∃ s1, forStride (fun ct H =>
        forStride (fun kt H => some (forRange rt rs (fun i H =>
          forRange ct (min (ct + tsize) c) (fun j H =>
            ret.set H i j (f kt (min (kt + tsize) K) H i j)) H) H)) K tsize fuel 0 H)
        c tsize fuel 0 Hin = some s1 ∧
      ret.Upd a Hin s1 (fun i _ => rt ≤ i ∧ i < rs) (g (lastStart K tsize) K) := by
  obtain ⟨s1, x1, he, hx1, hP⟩ := forStride_inv
    (fun ct H1 => ret.Upd a Hin H1 (fun i j => rt ≤ i ∧ i < rs ∧ j < ct)
      (g (lastStart K tsize) K))
    (fun ct H =>
        forStride (fun kt H => some (forRange rt rs (fun i H =>
          forRange ct (min (ct + tsize) c) (fun j H =>
            ret.set H i j (f kt (min (kt + tsize) K) H i j)) H) H)) K tsize fuel 0 H)
    c tsize ht fuel 0 Hin (by omega) (by omega)
    (Matrix.Upd_mono (Matrix.Upd_refl ret a Hin _)
      (fun i j _ _ => ⟨fun h => h.elim, fun h => by omega⟩))
    (fun t H1 _ htc hP => by
      obtain ⟨s2, he2, hu⟩ := tile_k ret a hbuf Hst hlen f g hf K tsize fuel hK ht hfuel H1
        (Heap.sameExcept_trans hs hP.1) rt rs t (min (t + tsize) c) hrs (by omega)
      refine ⟨s2, he2, Matrix.Upd_mono (Matrix.Upd_trans hP hu) (fun i j _ hj => ?_)⟩
      constructor
      · rintro (h | h) <;> exact ⟨h.1, h.2.1, by omega⟩
      · intro h
        by_cases hjt : j < t
        · exact Or.inl ⟨h.1, h.2.1, hjt⟩
        · exact Or.inr ⟨h.1, h.2.1, by omega, by omega⟩)
  exact ⟨s1, he, Matrix.Upd_mono hP (fun i j _ hj =>
    ⟨fun h => ⟨h.1, h.2.1⟩, fun h => ⟨h.1, h.2, by omega⟩⟩)⟩

include hbuf hlen hf hK ht in
/-- The loop over the row tiles: every element holds the partial sum of the
last tile of the shared dimension. -/
theorem tile_r (hfuel : K < fuel) (c : Nat) (hc : c = ret.m_ncol) (hfc : c < fuel)
    (r : Nat) (hr : r = ret.m_nrow) (hfr : r < fuel) :
    ∃ s1, forStride (fun rt H =>
        forStride (fun ct H =>
          forStride (fun kt H => some (forRange rt (min (rt + tsize) r) (fun i H =>
            forRange ct (min (ct + tsize) c) (fun j H =>
              ret.set H i j (f kt (min (kt + tsize) K) H i j)) H) H)) K tsize fuel 0 H)
          c tsize fuel 0 H)
        r tsize fuel 0 Hst = some s1 ∧
      ret.Upd a Hst s1 (fun _ _ => True) (g (lastStart K tsize) K) := by
  obtain ⟨s1, x1, he, hx1, hP⟩ := forStride_inv
    (fun rt H1 => ret.Upd a Hst H1 (fun i _ => i < rt) (g (lastStart K tsize) K))
    (fun rt H =>
        forStride (fun ct H =>
          forStride (fun kt H => some (forRange rt (min (rt + tsize) r) (fun i H =>
            forRange ct (min (ct + tsize) c) (fun j H =>
              ret.set H i j (f kt (min (kt + tsize) K) H i j)) H) H)) K tsize fuel 0 H)
          c tsize fuel 0 H)
    r tsize ht fuel 0 Hst (by omega) (by omega)
    (Matrix.Upd_mono (Matrix.Upd_refl ret a Hst _)
      (fun i j _ _ => ⟨fun h => h.elim, fun h => by omega⟩))
    (fun t H1 _ htr hP => by
      obtain ⟨s2, he2, hu⟩ := tile_c ret a hbuf Hst hlen f g hf K tsize fuel hK ht hfuel c hc hfc
        H1 hP.1 t (min (t + tsize) r) (by omega)
      refine ⟨s2, he2, Matrix.Upd_mono (Matrix.Upd_trans hP hu) (fun i j hi _ => ?_)⟩
      constructor
      · rintro (h | h) <;> omega
      · intro h
        by_cases hit : i < t
        · exact Or.inl hit
        · exact Or.inr ⟨by omega, by omega⟩)
  exact ⟨s1, he, Matrix.Upd_mono hP (fun i j hi _ => ⟨fun _ => trivial, fun _ => by omega⟩)⟩

end TileLoops

/-- A strided loop with a positive step and a body that always returns
ends once the fuel exceeds the bound. -/
theorem forStride_total {σ : Type} (body : Nat → σ → Option σ) (bound step : Nat)
    (hstep : 1 ≤ step) (fuel : Nat) (hfuel : bound < fuel) (s : σ)
    (hb : ∀ t s, ∃ s1, body t s = some s1) :
    ∃ s1, forStride body bound step fuel 0 s = some s1 := by
  obtain ⟨s1, _, he, _, _⟩ := forStride_inv (fun _ _ => True) body bound step hstep fuel 0 s
    (by omega) (by omega) trivial
    (fun t s _ _ _ => by
      obtain ⟨s1, h1⟩ := hb t s
      exact ⟨s1, h1, trivial⟩)
  exact ⟨s1, he⟩

theorem tile_sum_zero {α : Type} [Zero α] [Add α] [Mul α] (H : Heap α) (A B : Matrix)
    (i j : Nat) : tile_sum H A B 0 A.m_ncol i j = dot H A B i j := by
  simp [tile_sum, dot, List.range_eq_range']

theorem multiply_tile_ok {α : Type} [Zero α] [Add α] [Mul α] (fuel : Nat) (H : Heap α)
    (A B : Matrix) (tsize : Nat) (h : A.m_ncol = B.m_nrow) :
    multiply_tile fuel H A B tsize =
      (forStride (fun rt H1 =>
        forStride (fun ct H1 =>
          forStride (fun kt H1 =>
            some (forRange rt (min (rt + tsize) A.m_nrow) (fun i H1 =>
              forRange ct (min (ct + tsize) B.m_ncol) (fun j H1 =>
                (Matrix.ctor H A.m_nrow B.m_ncol).1.set H1 i j
                  (forRange kt (min (kt + tsize) A.m_ncol)
                    (fun k v => v + A.get H1 i k * B.get H1 k j) 0)) H1) H1))
            A.m_ncol tsize fuel 0 H1)
          B.m_ncol tsize fuel 0 H1)
        A.m_nrow tsize fuel 0 (Matrix.ctor H A.m_nrow B.m_ncol).2).map
        (fun H2 => .ok ((Matrix.ctor H A.m_nrow B.m_ncol).1, H2)) := by
  simp only [multiply_tile, Matrix.nrow, Matrix.ncol, h, ne_eq, not_true_eq_false, if_false]

/-- For `tsize >= 1` and fuel above the three dimensions the tile loops end. -/
theorem tile_terminates {α : Type} [Zero α] [Add α] [Mul α] (fuel : Nat) (H : Heap α)
    (A B : Matrix) (tsize : Nat) (h : A.m_ncol = B.m_nrow) (ht : 1 ≤ tsize)
    (hfuel : A.m_nrow < fuel ∧ B.m_ncol < fuel ∧ A.m_ncol < fuel) :
    ∃ H1, multiply_tile fuel H A B tsize =
      some (.ok ((Matrix.ctor H A.m_nrow B.m_ncol).1, H1)) := by
  rw [multiply_tile_ok fuel H A B tsize h]
  obtain ⟨s1, h1⟩ := forStride_total (fun rt H1 =>
        forStride (fun ct H1 =>
          forStride (fun kt H1 =>
            some (forRange rt (min (rt + tsize) A.m_nrow) (fun i H1 =>
              forRange ct (min (ct + tsize) B.m_ncol) (fun j H1 =>
                (Matrix.ctor H A.m_nrow B.m_ncol).1.set H1 i j
                  (forRange kt (min (kt + tsize) A.m_ncol)
                    (fun k v => v + A.get H1 i k * B.get H1 k j) 0)) H1) H1))
            A.m_ncol tsize fuel 0 H1)
          B.m_ncol tsize fuel 0 H1) A.m_nrow tsize ht fuel hfuel.1
      (Matrix.ctor H A.m_nrow B.m_ncol).2
      (fun rt s => forStride_total _ B.m_ncol tsize ht fuel hfuel.2.1 s
        (fun ct s => forStride_total _ A.m_ncol tsize ht fuel hfuel.2.2 s
          (fun kt s => ⟨_, rfl⟩)))
  exact ⟨s1, by rw [h1]; rfl⟩

/-- What `multiply_tile` returns on live operands with a non-empty shared
dimension: element `(i, j)` is the sum over the last tile of that dimension. -/
theorem tile_run {α : Type} [Zero α] [Add α] [Mul α] (fuel : Nat) (H : Heap α)
    (A B : Matrix) (tsize : Nat) (hA : A.valid H) (hB : B.valid H)
    (h : A.m_ncol = B.m_nrow) (hK : 1 ≤ A.m_ncol) (ht : 1 ≤ tsize)
    (hfuel : A.m_nrow < fuel ∧ B.m_ncol < fuel ∧ A.m_ncol < fuel) :
    ∃ ret H1, multiply_tile fuel H A B tsize = some (.ok (ret, H1)) ∧
      ret.m_nrow = A.m_nrow ∧ ret.m_ncol = B.m_ncol ∧
      ∀ i j, i < A.m_nrow → j < B.m_ncol →
        ret.get H1 i j = tile_sum H A B (lastStart A.m_ncol tsize) A.m_ncol i j := by
  by_cases hz : A.m_nrow * B.m_ncol = 0
  · obtain ⟨H1, h1⟩ := tile_terminates fuel H A B tsize h ht hfuel
    refine ⟨_, H1, h1, ?_⟩
    rw [Matrix.ctor_zero H _ _ hz]
    refine ⟨rfl, rfl, ?_⟩
    intro i k hi hk
    have := Nat.mul_pos (Nat.zero_lt_of_lt hi) (Nat.zero_lt_of_lt hk)
    omega
  · rw [multiply_tile_ok fuel H A B tsize h, Matrix.ctor_pos H _ _ hz]
    obtain ⟨s1, h1, hu⟩ := tile_r ⟨A.m_nrow, B.m_ncol, some H.next⟩ H.next rfl
      (H.alloc (A.m_nrow * B.m_ncol)).2 (Matrix.alloc_length H _)
      (fun kt ks H1 i j => forRange kt ks (fun k v => v + A.get H1 i k * B.get H1 k j) 0)
      (fun kt ks i j => tile_sum H A B kt ks i j)
      (fun kt ks H1 hs i j => by
        show forRange kt ks (fun k v => v + A.get H1 i k * B.get H1 k j) 0 =
          tile_sum H A B kt ks i j
        rw [forRange, loopN_eq_foldl, tile_sum]
        congr 1
        funext v k
        rw [Matrix.get_sameExcept hs (Matrix.valid_ne_next hA),
          Matrix.get_sameExcept hs (Matrix.valid_ne_next hB),
          Matrix.get_alloc (Matrix.valid_ne_next hA),
          Matrix.get_alloc (Matrix.valid_ne_next hB)])
      A.m_ncol tsize fuel hK ht hfuel.2.2 B.m_ncol rfl hfuel.2.1 A.m_nrow rfl hfuel.1
    refine ⟨⟨A.m_nrow, B.m_ncol, some H.next⟩, s1, by rw [h1]; rfl, rfl, rfl, ?_⟩
    intro i j hi hj
    exact (hu.2 i j hi hj).1 trivial

/-! ## Flat sequences, equality and copies: lemmas -/

namespace Matrix
variable {α : Type}

theorem no_position {r c i j : Nat} (h : r * c = 0) (hi : i < r) (hj : j < c) : False := by
  have := Nat.mul_pos (Nat.zero_lt_of_lt hi) (Nat.zero_lt_of_lt hj)
  omega

theorem assign_vec_error [Zero α] (self : Matrix) (H : Heap α) (vec : List α)
    (h : vec.length ≠ self.m_nrow * self.m_ncol) :
    assign_vec self H vec =
      .error (Exn.out_of_range "number of elements mismatch", self, H) := by
  have : self.size ≠ vec.length := fun e => h (by rw [← e]; rfl)
  simp [assign_vec, this]

theorem assign_vec_ok [Zero α] (self : Matrix) (H : Heap α) (vec : List α)
    (h : vec.length = self.m_nrow * self.m_ncol) :
    assign_vec self H vec = .ok (self,
      (forRange 0 self.m_nrow (fun i s =>
        forRange 0 self.m_ncol (fun j (s : Nat × Heap α) =>
          (s.1 + 1, self.set s.2 i j (vec.getD s.1 0))) s) (0, H)).2) := by
  have : self.size = vec.length := by rw [h]; rfl
  simp [assign_vec, this]

/-- The fill loop of `operator=(vector)`: element `(i, j)` receives the
entry `i * ncol + j` of the sequence. -/
theorem assign_vec_fill [Zero α] (self : Matrix) (a : Nat) (hbuf : self.m_buffer = some a)
    (H : Heap α) (hlen : (H.mem a).length = self.m_nrow * self.m_ncol) (vec : List α) :
    self.Upd a H
      (forRange 0 self.m_nrow (fun i s =>
        forRange 0 self.m_ncol (fun j (s : Nat × Heap α) =>
          (s.1 + 1, self.set s.2 i j (vec.getD s.1 0))) s) (0, H)).2
      (fun _ _ => True) (fun i j => vec.getD (i * self.m_ncol + j) 0) := by
  have houter := forRange_inv
    (fun i (s : Nat × Heap α) => s.1 = i * self.m_ncol ∧
      self.Upd a H s.2 (fun i1 _ => i1 < i) (fun i j => vec.getD (i * self.m_ncol + j) 0))
    (fun i s =>
        forRange 0 self.m_ncol (fun j (s : Nat × Heap α) =>
          (s.1 + 1, self.set s.2 i j (vec.getD s.1 0))) s)
    0 self.m_nrow (Nat.zero_le _) (0, H)
    ⟨by simp, Upd_mono (Upd_refl self a H _)
      (fun i j _ _ => ⟨fun h => h.elim, fun h => by omega⟩)⟩
    (fun i s _ hi hP => by
      have hinner := forRange_inv
        (fun j (s1 : Nat × Heap α) => s1.1 = i * self.m_ncol + j ∧
          self.Upd a H s1.2 (fun i1 j1 => i1 < i ∨ (i1 = i ∧ j1 < j))
            (fun i j => vec.getD (i * self.m_ncol + j) 0))
        (fun j (s : Nat × Heap α) => (s.1 + 1, self.set s.2 i j (vec.getD s.1 0)))
        0 self.m_ncol (Nat.zero_le _) s
        ⟨by rw [hP.1]; rfl, Upd_mono hP.2
          (fun i1 j1 _ _ => ⟨fun h => Or.inl h, fun h => h.elim id (fun e => by omega)⟩)⟩
        (fun j s1 _ hj hQ => by
          refine ⟨by show s1.1 + 1 = _; rw [hQ.1]; omega, ?_⟩
          have := Upd_set hbuf hlen hQ.2 hi hj
            (show vec.getD s1.1 0 = vec.getD (i * self.m_ncol + j) 0 by rw [hQ.1])
          exact Upd_mono this (fun i1 j1 _ _ => by
            constructor
            · rintro ((h | h) | h)
              · exact Or.inl h
              · exact Or.inr ⟨h.1, by omega⟩
              · exact Or.inr ⟨h.1, by omega⟩
            · rintro (h | h)
              · exact Or.inl (Or.inl h)
              · by_cases e : j1 = j
                · exact Or.inr ⟨h.1, e⟩
                · exact Or.inl (Or.inr ⟨h.1, by omega⟩)))
      refine ⟨by rw [hinner.1]; ring, Upd_mono hinner.2 (fun i1 j1 _ hj1 => ?_)⟩
      constructor
      · rintro (h | h) <;> omega
      · intro h
        by_cases e : i1 = i
        · exact Or.inr ⟨e, hj1⟩
        · exact Or.inl (by omega))
  exact Upd_mono houter.2 (fun i j hi _ => ⟨fun _ => trivial, fun _ => hi⟩)

theorem getD_eq_getElem? [Zero α] (vec : List α) (k : Nat) (hk : k < vec.length) :
    vec[k]? = some (vec.getD k 0) := by
  simp [List.getD_eq_getElem?_getD, List.getElem?_eq_getElem hk]

theorem index_rowmajor_lt {r c i j : Nat} (hi : i < r) (hj : j < c) : i * c + j < r * c := by
  have h1 : (i + 1) * c ≤ r * c := Nat.mul_le_mul_right c (by omega)
  have h2 : (i + 1) * c = i * c + c := by ring
  omega

/-- Assigning a sequence of the right length to a live object. -/
theorem assign_vec_run [Zero α] (self : Matrix) (H : Heap α) (hv : self.valid H)
    (vec : List α) (h : vec.length = self.m_nrow * self.m_ncol) :
    ∃ H1, assign_vec self H vec = .ok (self, H1) ∧
      ∀ i j, i < self.m_nrow → j < self.m_ncol →
        vec[i * self.m_ncol + j]? = some (self.get H1 i j) := by
  refine ⟨_, assign_vec_ok self H vec h, ?_⟩
  intro i j hi hj
  rw [getD_eq_getElem? vec _ (by rw [h]; exact index_rowmajor_lt hi hj)]
  congr 1
  unfold valid at hv
  cases hb : self.m_buffer with
  | none =>
    rw [hb] at hv
    exact (no_position hv hi hj).elim
  | some a =>
    rw [hb] at hv
    exact ((assign_vec_fill self a hb H hv.2 vec).2 i j hi hj).1 trivial |>.symm

theorem ctor_valid (H : Heap α) (r c : Nat) : (ctor H r c).1.valid (ctor H r c).2 := by
  by_cases hz : r * c = 0
  · rw [ctor_zero H r c hz]; exact hz
  · rw [ctor_pos H r c hz]
    exact ⟨by simp [Heap.alloc], alloc_length H _⟩

theorem ctor_shape (H : Heap α) (r c : Nat) :
    (ctor H r c).1.m_nrow = r ∧ (ctor H r c).1.m_ncol = c := by
  by_cases hz : r * c = 0
  · rw [ctor_zero H r c hz]; exact ⟨rfl, rfl⟩
  · rw [ctor_pos H r c hz]; exact ⟨rfl, rfl⟩

theorem ctor_vec_eq [Zero α] (H : Heap α) (r c : Nat) (vec : List α) :
    ctor_vec H r c vec = assign_vec (ctor H r c).1 (ctor H r c).2 vec := rfl

/-- The comparison loop returns true exactly when all compared cells are equal. -/
theorem eq_loop_iff [Zero α] [BEq α] (H : Heap α) (p q : Option Nat) :
    ∀ (n i : Nat), eq_loop H p q n i = true ↔
      ∀ t, i ≤ t → t < i + n → (H.read p t == H.read q t) = true := by
  intro n
  induction n with
  | zero => intro i; simp [eq_loop]; intro t h1 h2; omega
  | succ n ih =>
    intro i
    simp only [eq_loop]
    by_cases hd : (H.read p i == H.read q i) = true
    · have : (H.read p i != H.read q i) = false := by simp [bne, hd]
      rw [this]
      simp only [Bool.false_eq_true, if_false]
      rw [ih (i + 1)]
      constructor
      · intro h t h1 h2
        by_cases e : t = i
        · rw [e]; exact hd
        · exact h t (by omega) (by omega)
      · intro h t h1 h2
        exact h t (by omega) (by omega)
    · have : (H.read p i != H.read q i) = true := by
        simp only [Bool.not_eq_true] at hd
        simp [bne, hd]
      rw [this]
      simp only [if_true]
      constructor
      · intro h; exact absurd h (by simp)
      · intro h; exact absurd (h i (le_refl _) (by omega)) hd

/-- Every offset below `r * c` is the offset of a valid position. -/
theorem offset_split {r c t : Nat} (ht : t < r * c) :
    t % r < r ∧ t / r < c ∧ t % r + t / r * r = t := by
  have hr : 0 < r := by
    rcases Nat.eq_zero_or_pos r with h | h
    · subst h; simp at ht
    · exact h
  refine ⟨Nat.mod_lt _ hr, ?_, ?_⟩
  · exact Nat.div_lt_of_lt_mul ht
  · rw [Nat.mul_comm]; exact Nat.mod_add_div t r

/-- A write through `W` does not change what is read through an object
that owns another buffer. -/
theorem set_frame [Zero α] (Z W : Matrix) (hsep : W.separate Z) (H : Heap α)
    (i j : Nat) (v : α) (i1 j1 : Nat) :
    Z.get (W.set H i j v) i1 j1 = Z.get H i1 j1 := by
  unfold set
  cases hb : W.m_buffer with
  | none => rfl
  | some a =>
    have hne : Z.m_buffer ≠ some a := by
      rcases hsep with h | h
      · rw [hb] at h; exact absurd h (by simp)
      · rw [hb] at h; exact fun e => h e.symm
    exact get_sameExcept (Heap.sameExcept_write H a _ v) hne i1 j1

theorem valid_sameExcept {Z : Matrix} {H H1 : Heap α} {a : Nat}
    (h : H.sameExcept H1 a) (hZ : Z.valid H) : Z.valid H1 := by
  unfold valid at hZ ⊢
  cases hb : Z.m_buffer with
  | none => rw [hb] at hZ; exact hZ
  | some b =>
    rw [hb] at hZ
    refine ⟨by rw [h.1]; exact hZ.1, ?_⟩
    by_cases e : b = a
    · rw [e, h.2.2.2, ← e]; exact hZ.2
    · rw [h.2.2.1 b e]; exact hZ.2

theorem valid_set (Z W : Matrix) (H : Heap α) (hZ : Z.valid H) (i j : Nat) (v : α) :
    Z.valid (W.set H i j v) := by
  unfold set
  cases hb : W.m_buffer with
  | none => exact hZ
  | some a => exact valid_sameExcept (Heap.sameExcept_write H a _ v) hZ

theorem valid_alloc {Z : Matrix} {H : Heap α} (hZ : Z.valid H) (n : Nat) :
    Z.valid (H.alloc n).2 := by
  unfold valid at hZ ⊢
  cases hb : Z.m_buffer with
  | none => rw [hb] at hZ; exact hZ
  | some b =>
    rw [hb] at hZ
    have : b ≠ H.next := by omega
    refine ⟨by simp [Heap.alloc]; omega, ?_⟩
    simp [Heap.alloc, Function.update_noteq this, hZ.2]

theorem valid_free {Z : Matrix} {H : Heap α} (hZ : Z.valid H) (a : Nat)
    (hne : Z.m_buffer ≠ some a) : Z.valid (H.free a) := by
  unfold valid at hZ ⊢
  cases hb : Z.m_buffer with
  | none => rw [hb] at hZ; exact hZ
  | some b =>
    rw [hb] at hZ hne
    have : b ≠ a := fun e => hne (by rw [e])
    refine ⟨hZ.1, ?_⟩
    simp [Heap.free, Function.update_noteq this, hZ.2]

theorem get_free [Zero α] {Z : Matrix} (H : Heap α) (a : Nat) (hne : Z.m_buffer ≠ some a)
    (i j : Nat) : Z.get (H.free a) i j = Z.get H i j := by
  unfold get Heap.read
  cases hb : Z.m_buffer with
  | none => rfl
  | some b =>
    rw [hb] at hne
    have : b ≠ a := fun e => hne (by rw [e])
    simp [Heap.free, Function.update_noteq this]

/-- What `reset_buffer` guarantees to the object itself and to any other live
object `Y` that does not share its buffer. -/
theorem reset_buffer_spec [Zero α] (self Y : Matrix) (H : Heap α) (hY : Y.valid H)
    (hsep : self.separate Y) (r c : Nat) :
    (reset_buffer self H r c).1.m_nrow = r ∧
    (reset_buffer self H r c).1.m_ncol = c ∧
    (reset_buffer self H r c).1.valid (reset_buffer self H r c).2 ∧
    Y.valid (reset_buffer self H r c).2 ∧
    (∀ i j, Y.get (reset_buffer self H r c).2 i j = Y.get H i j) ∧
    (reset_buffer self H r c).1.separate Y ∧
    Y.separate (reset_buffer self H r c).1 := by
  have hrel : Y.valid (self.release H) ∧ (∀ i j, Y.get (self.release H) i j = Y.get H i j) := by
    unfold release
    cases hb : self.m_buffer with
    | none => exact ⟨hY, fun _ _ => rfl⟩
    | some a =>
      have hne : Y.m_buffer ≠ some a := by
        rcases hsep with h | h
        · rw [hb] at h; exact absurd h (by simp)
        · rw [hb] at h; exact fun e => h e.symm
      exact ⟨valid_free hY a hne, get_free H a hne⟩
  have hYn : Y.m_buffer ≠ some (self.release H).next := valid_ne_next hrel.1
  by_cases hz : r * c = 0
  · have e : reset_buffer self H r c = (⟨r, c, none⟩, self.release H) := by
      simp only [reset_buffer, hz, ne_eq, not_true_eq_false, if_false]
    rw [e]
    refine ⟨rfl, rfl, hz, hrel.1, hrel.2, Or.inl rfl, ?_⟩
    by_cases hn : Y.m_buffer = none
    · exact Or.inl hn
    · exact Or.inr hn
  · have e : reset_buffer self H r c =
        (⟨r, c, some (self.release H).next⟩, ((self.release H).alloc (r * c)).2) := by
      simp only [reset_buffer, hz, ne_eq, not_false_eq_true, if_true, Heap.alloc]
    rw [e]
    refine ⟨rfl, rfl, ⟨by simp [Heap.alloc], alloc_length _ _⟩, valid_alloc hrel.1 _, ?_,
      Or.inr (fun h => hYn h.symm), Or.inr hYn⟩
    intro i j
    rw [get_alloc hYn, hrel.2]

/-- What the copy loop guarantees: the target holds the source's elements and
nothing outside the target's buffer changed. -/
theorem copy_loop_spec [Zero α] (self Y : Matrix) (H : Heap α) (hX : self.valid H)
    (hsep : self.separate Y) :
    (∀ i j, i < self.m_nrow → j < self.m_ncol →
      self.get (copy_loop self H Y) i j = Y.get H i j) ∧
    (∀ Z : Matrix, self.separate Z → ∀ i j, Z.get (copy_loop self H Y) i j = Z.get H i j) ∧
    (∀ Z : Matrix, Z.valid H → Z.valid (copy_loop self H Y)) := by
  cases hb : self.m_buffer with
  | none =>
    have e : copy_loop self H Y = H := by
      unfold copy_loop
      refine forRange_inv (fun _ H1 => H1 = H) _ 0 self.m_nrow (Nat.zero_le _) H rfl ?_
      intro i H1 _ _ h1
      refine forRange_inv (fun _ H2 => H2 = H) _ 0 self.m_ncol (Nat.zero_le _) H1 h1 ?_
      intro j H2 _ _ h2
      simp [set, hb, Heap.write, h2]
    rw [e]
    refine ⟨?_, fun _ _ _ _ => rfl, fun _ h => h⟩
    intro i j hi hj
    unfold valid at hX
    rw [hb] at hX
    exact (no_position hX hi hj).elim
  | some a =>
    unfold valid at hX
    rw [hb] at hX
    have hYa : Y.m_buffer ≠ some a := by
      rcases hsep with h | h
      · rw [hb] at h; exact absurd h (by simp)
      · rw [hb] at h; exact fun e => h e.symm
    have hfill := rect_fill self a hb H hX.2 (fun H1 i j => Y.get H1 i j)
      (fun i j => Y.get H i j) (fun H1 hs i j => get_sameExcept hs hYa i j)
      0 self.m_nrow 0 self.m_ncol (le_refl _) (le_refl _)
    refine ⟨?_, ?_, ?_⟩
    · intro i j hi hj
      exact (hfill.2 i j hi hj).1 ⟨Nat.zero_le _, hi, Nat.zero_le _, hj⟩
    · intro Z hZ i j
      have hZa : Z.m_buffer ≠ some a := by
        rcases hZ with h | h
        · rw [hb] at h; exact absurd h (by simp)
        · rw [hb] at h; exact fun e => h e.symm
      exact get_sameExcept hfill.1 hZa i j
    · intro Z hZ
      exact valid_sameExcept hfill.1 hZ

theorem copy_ctor_eq [Zero α] (H : Heap α) (A : Matrix) :
    copy_ctor H A =
      ((reset_buffer ⟨A.m_nrow, A.m_ncol, none⟩ H A.m_nrow A.m_ncol).1,
       copy_loop (reset_buffer ⟨A.m_nrow, A.m_ncol, none⟩ H A.m_nrow A.m_ncol).1
         (reset_buffer ⟨A.m_nrow, A.m_ncol, none⟩ H A.m_nrow A.m_ncol).2 A) := rfl

theorem separate_none (Y : Matrix) (r c : Nat) : (Matrix.mk r c none).separate Y :=
  Or.inl rfl

end Matrix

/-! ## The claims -/

/-- The constructor from a flat sequence, evaluated: the row-major input
1, ..., 6 of a 2 x 3 matrix is stored column-major. -/
theorem ctor_vec_example :
    (match Matrix.ctor_vec emptyHeap 2 3 exV with
      | .ok (M, H) => some (M.buffer_vector H, M.rows H)
      | .error _ => none) = some ([1, 4, 2, 5, 3, 6], [[1, 2, 3], [4, 5, 6]]) := by
  decide

/-- The first end-to-end scenario of the specification, evaluated. -/
theorem multiply_naive_example :
    result_rows (multiply_naive exHeap exA exB) = some [[58, 64], [139, 154]] := by
  decide

/-- Claim C2, evaluated where it fails: for the live operands `A` of shape
1 x 0 and `B` of shape 0 x 1 and `tsize = 1` (so `tsize >= A.ncol`), the loop
over the shared dimension of `multiply_tile` has no iteration, the element
`(0, 0)` of its result is never written and holds what the allocation left
there (1 in `emptyHeap`), whereas `multiply_naive` returns the element 0. -/
theorem multiply_tile_empty_inner :
    (Matrix.mk 1 0 none).valid emptyHeap ∧ (Matrix.mk 0 1 none).valid emptyHeap ∧
    (Matrix.mk 1 0 none).m_ncol = (Matrix.mk 0 1 none).m_nrow ∧
    (multiply_tile 2 emptyHeap ⟨1, 0, none⟩ ⟨0, 1, none⟩ 1).map result_rows =
      some (some [[1]]) ∧
    result_rows (multiply_naive emptyHeap ⟨1, 0, none⟩ ⟨0, 1, none⟩) = some [[0]] := by
  decide

/-- Single-tile case: with `1 <= A.ncol <= tsize` both kernels agree. -/
theorem tile_eq_naive {α : Type} [Zero α] [Add α] [Mul α] (fuel : Nat) (H : Heap α)
    (A B : Matrix) (tsize : Nat) (hA : A.valid H) (hB : B.valid H)
    (h : A.m_ncol = B.m_nrow) (hK : 1 ≤ A.m_ncol) (ht : A.m_ncol ≤ tsize)
    (hfuel : A.m_nrow < fuel ∧ B.m_ncol < fuel ∧ A.m_ncol < fuel) :
    ∃ t Ht n Hn, multiply_tile fuel H A B tsize = some (.ok (t, Ht)) ∧
      multiply_naive H A B = .ok (n, Hn) ∧
      t.m_nrow = n.m_nrow ∧ t.m_ncol = n.m_ncol ∧
      ∀ i j, i < n.m_nrow → j < n.m_ncol → t.get Ht i j = n.get Hn i j := by
  obtain ⟨t, Ht, e1, tr, tc, tel⟩ := tile_run fuel H A B tsize hA hB h hK (by omega) hfuel
  obtain ⟨n, Hn, e2, nr, nc, nel⟩ := naive_run H A B hA hB h
  refine ⟨t, Ht, n, Hn, e1, e2, by rw [tr, nr], by rw [tc, nc], ?_⟩
  intro i j hi hj
  rw [nr] at hi
  rw [nc] at hj
  rw [tel i j hi hj, nel i j hi hj, lastStart_single ht, tile_sum_zero]

/-- Claim C4: both kernels throw the shape-mismatch exception exactly when
`A.ncol` differs from `B.nrow`, before touching the heap; when the two agree
`multiply_naive` returns a matrix, `multiply_tile` never throws, and for
`tsize >= 1` it returns a matrix once the fuel exceeds the three dimensions. -/
theorem shape_mismatch_iff {α : Type} [Zero α] [Add α] [Mul α] (H : Heap α)
    (A B : Matrix) :
    (A.m_ncol ≠ B.m_nrow →
      multiply_naive H A B = .error (Exn.out_of_range shape_msg, H) ∧
      ∀ fuel tsize,
        multiply_tile fuel H A B tsize = some (.error (Exn.out_of_range shape_msg, H))) ∧
    (A.m_ncol = B.m_nrow →
      (∃ ret H1, multiply_naive H A B = .ok (ret, H1)) ∧
      (∀ fuel tsize e, multiply_tile fuel H A B tsize ≠ some (.error e)) ∧
      (∀ fuel tsize, 1 ≤ tsize → A.m_nrow < fuel → B.m_ncol < fuel → A.m_ncol < fuel →
        ∃ ret H1, multiply_tile fuel H A B tsize = some (.ok (ret, H1)))) := by
  constructor
  · intro h
    constructor
    · simp [multiply_naive, Matrix.ncol, Matrix.nrow, h]
    · intro fuel tsize
      simp [multiply_tile, Matrix.ncol, Matrix.nrow, h]
  · intro h
    refine ⟨⟨_, _, multiply_naive_ok H A B h⟩, ?_, ?_⟩
    · intro fuel tsize e he
      rw [multiply_tile_ok fuel H A B tsize h] at he
      cases hs : forStride (fun rt H1 =>
        forStride (fun ct H1 =>
          forStride (fun kt H1 =>
            some (forRange rt (min (rt + tsize) A.m_nrow) (fun i H1 =>
              forRange ct (min (ct + tsize) B.m_ncol) (fun j H1 =>
                (Matrix.ctor H A.m_nrow B.m_ncol).1.set H1 i j
                  (forRange kt (min (kt + tsize) A.m_ncol)
                    (fun k v => v + A.get H1 i k * B.get H1 k j) 0)) H1) H1))
            A.m_ncol tsize fuel 0 H1)
          B.m_ncol tsize fuel 0 H1)
        A.m_nrow tsize fuel 0 (Matrix.ctor H A.m_nrow B.m_ncol).2 with
      | none => rw [hs] at he; simp at he
      | some s => rw [hs] at he; simp at he
    · intro fuel tsize ht f1 f2 f3
      obtain ⟨H1, h1⟩ := tile_terminates fuel H A B tsize h ht ⟨f1, f2, f3⟩
      exact ⟨_, H1, h1⟩

theorem shape_mismatch_iff_witness :
    exA.m_ncol ≠ exA.m_nrow ∧ exA.m_ncol = exB.m_nrow ∧
    (multiply_naive exHeap exA exA = .error (Exn.out_of_range shape_msg, exHeap) ∧
      ∀ fuel tsize,
        multiply_tile fuel exHeap exA exA tsize =
          some (.error (Exn.out_of_range shape_msg, exHeap))) ∧
    ((∃ ret H1, multiply_naive exHeap exA exB = .ok (ret, H1)) ∧
      (∀ fuel tsize e, multiply_tile fuel exHeap exA exB tsize ≠ some (.error e)) ∧
      (∀ fuel tsize, 1 ≤ tsize → exA.m_nrow < fuel → exB.m_ncol < fuel → exA.m_ncol < fuel →
        ∃ ret H1, multiply_tile fuel exHeap exA exB tsize = some (.ok (ret, H1)))) :=
  ⟨by decide, by decide, (shape_mismatch_iff exHeap exA exA).1 (by decide),
   (shape_mismatch_iff exHeap exA exB).2 (by decide)⟩

/-- Claim C5: for a flat sequence `v` of length `r * c`, the constructor
`Matrix(r, c, v)` returns a matrix of shape `r x c` with `M(i, j) = v[i*c + j]`
at every valid position, and assigning `v` to a live `r x c` matrix keeps the
object (hence its shape) and gives it the same elements. -/
theorem flat_sequence_rowmajor {α : Type} [Zero α] (H : Heap α) (r c : Nat) (v : List α)
    (hv : v.length = r * c) :
    (∃ M H1, Matrix.ctor_vec H r c v = .ok (M, H1) ∧ M.m_nrow = r ∧ M.m_ncol = c ∧
      ∀ i j, i < r → j < c → v[i * c + j]? = some (M.get H1 i j)) ∧
    (∀ M : Matrix, M.valid H → M.m_nrow = r → M.m_ncol = c →
      ∃ H1, M.assign_vec H v = .ok (M, H1) ∧
        ∀ i j, i < r → j < c → v[i * c + j]? = some (M.get H1 i j)) := by
  constructor
  · have hs := Matrix.ctor_shape H r c
    obtain ⟨H1, h1, hel⟩ := Matrix.assign_vec_run (Matrix.ctor H r c).1 (Matrix.ctor H r c).2
      (Matrix.ctor_valid H r c) v (by rw [hs.1, hs.2, hv])
    refine ⟨_, H1, by rw [Matrix.ctor_vec_eq]; exact h1, hs.1, hs.2, ?_⟩
    intro i j hi hj
    have := hel i j (by rw [hs.1]; exact hi) (by rw [hs.2]; exact hj)
    rw [hs.2] at this
    exact this
  · intro M hM hr hc
    subst hr hc
    exact Matrix.assign_vec_run M H hM v hv

theorem flat_sequence_rowmajor_witness :
    exV.length = 2 * 3 ∧
    (∃ M H1, Matrix.ctor_vec exHeap 2 3 exV = .ok (M, H1) ∧ M.m_nrow = 2 ∧ M.m_ncol = 3 ∧
      ∀ i j, i < 2 → j < 3 → exV[i * 3 + j]? = some (M.get H1 i j)) ∧
    exA.valid exHeap ∧
    (∃ H1, exA.assign_vec exHeap exV = .ok (exA, H1) ∧
      ∀ i j, i < 2 → j < 3 → exV[i * 3 + j]? = some (exA.get H1 i j)) :=
  ⟨by decide, (flat_sequence_rowmajor exHeap 2 3 exV (by decide)).1, by decide,
   (flat_sequence_rowmajor exHeap 2 3 exV (by decide)).2 exA (by decide) rfl rfl⟩

/-- Claim C6: for a shape whose product `r * c` is a value of `size_t`, the
constructor from a flat sequence throws the shape-mismatch exception exactly
when the length of the sequence differs from `r * c`; so does the assignment
of a flat sequence to a live `r x c` matrix, and the throwing assignment
leaves the object and the heap, hence the shape and every element, as they
were. -/
theorem flat_sequence_mismatch {α : Type} [Zero α] (H : Heap α) (r c : Nat) (v : List α) :
    (r * c < 2 ^ 64 →
      (v.length ≠ r * c →
        ∃ M1 H1, Matrix.ctor_vec H r c v =
          .error (Exn.out_of_range "number of elements mismatch", M1, H1)) ∧
      (v.length = r * c → ∃ M H1, Matrix.ctor_vec H r c v = .ok (M, H1))) ∧
    (∀ M : Matrix, M.valid H → M.m_nrow = r → M.m_ncol = c →
      (v.length ≠ r * c →
        M.assign_vec H v = .error (Exn.out_of_range "number of elements mismatch", M, H)) ∧
      (v.length = r * c → ∃ H1, M.assign_vec H v = .ok (M, H1))) := by
  have hs := Matrix.ctor_shape H r c
  constructor
  · intro _
    constructor
    · intro h
      exact ⟨_, _, (Matrix.ctor_vec_eq H r c v).trans
        (Matrix.assign_vec_error _ _ v (by rw [hs.1, hs.2]; exact h))⟩
    · intro h
      exact ⟨_, _, (Matrix.ctor_vec_eq H r c v).trans
        (Matrix.assign_vec_ok _ _ v (by rw [hs.1, hs.2]; exact h))⟩
  · intro M _ hr hc
    subst hr hc
    exact ⟨fun h => Matrix.assign_vec_error M H v h,
      fun h => ⟨_, Matrix.assign_vec_ok M H v h⟩⟩

theorem flat_sequence_mismatch_witness :
    2 * 3 < 2 ^ 64 ∧ exA.valid exHeap ∧ exShort.length ≠ 2 * 3 ∧ exV.length = 2 * 3 ∧
    ((∃ M1 H1, Matrix.ctor_vec exHeap 2 3 exShort =
        .error (Exn.out_of_range "number of elements mismatch", M1, H1)) ∧
      exA.assign_vec exHeap exShort =
        .error (Exn.out_of_range "number of elements mismatch", exA, exHeap)) ∧
    ((∃ M H1, Matrix.ctor_vec exHeap 2 3 exV = .ok (M, H1)) ∧
      ∃ H1, exA.assign_vec exHeap exV = .ok (exA, H1)) :=
  ⟨by decide, by decide, by decide, by decide,
   ⟨((flat_sequence_mismatch exHeap 2 3 exShort).1 (by decide)).1 (by decide),
    ((flat_sequence_mismatch exHeap 2 3 exShort).2 exA (by decide) rfl rfl).1 (by decide)⟩,
   ⟨((flat_sequence_mismatch exHeap 2 3 exV).1 (by decide)).2 (by decide),
    ((flat_sequence_mismatch exHeap 2 3 exV).2 exA (by decide) rfl rfl).2 (by decide)⟩⟩

/-- Claim C7: `a == b` is true exactly when the shapes agree and `a(i, j) == b(i, j)`
at every valid position; hence `a == a` when every element equals itself, and
`a == b` agrees with `b == a` since `==` on elements is symmetric. -/
theorem eq_iff_elementwise {α : Type} [Zero α] [BEq α] (H : Heap α) (a b : Matrix) :
    (a.eq H b = true ↔
      a.m_nrow = b.m_nrow ∧ a.m_ncol = b.m_ncol ∧
      ∀ i j, i < a.m_nrow → j < a.m_ncol → (a.get H i j == b.get H i j) = true) ∧
    ((∀ i j, i < a.m_nrow → j < a.m_ncol → (a.get H i j == a.get H i j) = true) →
      a.eq H a = true) ∧
    ((∀ x y : α, (x == y) = (y == x)) → a.eq H b = b.eq H a) := by
  have key : ∀ a b : Matrix, (a.eq H b = true ↔
      a.m_nrow = b.m_nrow ∧ a.m_ncol = b.m_ncol ∧
      ∀ i j, i < a.m_nrow → j < a.m_ncol → (a.get H i j == b.get H i j) = true) := by
    intro a b
    unfold Matrix.eq
    by_cases hs : a.m_nrow ≠ b.m_nrow ∨ a.m_ncol ≠ b.m_ncol
    · simp only [hs, if_true]
      constructor
      · intro h; exact absurd h (by simp)
      · intro h
        rcases hs with hs | hs
        · exact absurd h.1 hs
        · exact absurd h.2.1 hs
    · simp only [hs, if_false]
      have hr : a.m_nrow = b.m_nrow := by
        by_contra e; exact hs (Or.inl e)
      have hc : a.m_ncol = b.m_ncol := by
        by_contra e; exact hs (Or.inr e)
      rw [Matrix.eq_loop_iff]
      constructor
      · intro h
        refine ⟨hr, hc, ?_⟩
        intro i j hi hj
        have := h (i + j * a.m_nrow) (Nat.zero_le _)
          (by rw [Nat.zero_add, ← hr, ← hc]; exact index_lt hi hj)
        unfold Matrix.get Matrix.index
        rw [← hr]
        exact this
      · rintro ⟨_, _, h⟩ t _ ht
        rw [Nat.zero_add, ← hr, ← hc] at ht
        obtain ⟨h1, h2, h3⟩ := Matrix.offset_split ht
        have := h (t % a.m_nrow) (t / a.m_nrow) h1 h2
        unfold Matrix.get Matrix.index at this
        rw [← hr, h3] at this
        exact this
  refine ⟨key a b, ?_, ?_⟩
  · intro h
    exact (key a a).2 ⟨rfl, rfl, h⟩
  · intro hsym
    rw [Bool.eq_iff_iff, key a b, key b a]
    constructor
    · rintro ⟨h1, h2, h3⟩
      refine ⟨h1.symm, h2.symm, fun i j hi hj => ?_⟩
      rw [hsym]
      exact h3 i j (by rw [h1]; exact hi) (by rw [h2]; exact hj)
    · rintro ⟨h1, h2, h3⟩
      refine ⟨h1.symm, h2.symm, fun i j hi hj => ?_⟩
      rw [hsym]
      exact h3 i j (by rw [h1]; exact hi) (by rw [h2]; exact hj)

theorem eq_iff_elementwise_witness :
    exA.eq exHeap exA = true ∧ exA.eq exHeap exB = exB.eq exHeap exA ∧
    (exA.eq exHeap exB = true ↔
      exA.m_nrow = exB.m_nrow ∧ exA.m_ncol = exB.m_ncol ∧
      ∀ i j, i < exA.m_nrow → j < exA.m_ncol →
        (exA.get exHeap i j == exB.get exHeap i j) = true) :=
  ⟨(eq_iff_elementwise exHeap exA exA).2.1 (fun _ _ _ _ => beq_self_eq_true _),
   (eq_iff_elementwise exHeap exA exB).2.2 (fun _ _ => Bool.eq_iff_iff.2
     ⟨fun h => beq_iff_eq.2 (beq_iff_eq.1 h).symm, fun h => beq_iff_eq.2 (beq_iff_eq.1 h).symm⟩),
   (eq_iff_elementwise exHeap exA exB).1⟩

/-- Claim C8: for every live matrix `M`, `size()` is `nrow * ncol`,
`buffer_vector()` has that length, and its entry at offset `i + j * nrow` is
the element `(i, j)`; the vector is the content of the buffer, cell by cell. -/
theorem buffer_vector_layout {α : Type} [Zero α] (H : Heap α) (M : Matrix)
    (hM : M.valid H) :
    M.size = M.nrow * M.ncol ∧
    (M.buffer_vector H).length = M.size ∧
    (∀ i j, i < M.nrow → j < M.ncol →
      (M.buffer_vector H)[i + j * M.nrow]? = some (M.get H i j)) ∧
    (∀ a, M.m_buffer = some a → M.buffer_vector H = H.mem a) := by
  refine ⟨rfl, by simp [Matrix.buffer_vector], ?_, ?_⟩
  · intro i j hi hj
    have hlt : i + j * M.m_nrow < M.m_nrow * M.m_ncol := index_lt hi hj
    simp [Matrix.buffer_vector, Matrix.size, Matrix.nrow, Matrix.get, Matrix.index,
      List.getElem?_map, List.getElem?_range hlt]
  · intro a ha
    unfold Matrix.valid at hM
    rw [ha] at hM
    apply List.ext_getElem?
    intro n
    by_cases hn : n < M.m_nrow * M.m_ncol
    · have hn2 : n < (H.mem a).length := by rw [hM.2]; exact hn
      simp [Matrix.buffer_vector, Matrix.size, ha, Heap.read, List.getElem?_map,
        List.getElem?_range hn, List.getD_eq_getElem?_getD, List.getElem?_eq_getElem hn2]
    · have l1 : (M.buffer_vector H).length ≤ n := by
        simp [Matrix.buffer_vector, Matrix.size]; omega
      have l2 : (H.mem a).length ≤ n := by rw [hM.2]; omega
      rw [List.getElem?_eq_none l1, List.getElem?_eq_none l2]

theorem buffer_vector_layout_witness :
    exA.valid exHeap ∧ (1 < exA.nrow ∧ 2 < exA.ncol) ∧
    exA.size = exA.nrow * exA.ncol ∧ (exA.buffer_vector exHeap).length = exA.size ∧
    (exA.buffer_vector exHeap)[1 + 2 * exA.nrow]? = some (exA.get exHeap 1 2) ∧
    exA.buffer_vector exHeap = exHeap.mem 0 :=
  ⟨by decide, by decide, (buffer_vector_layout exHeap exA (by decide)).1,
   (buffer_vector_layout exHeap exA (by decide)).2.1,
   (buffer_vector_layout exHeap exA (by decide)).2.2.1 1 2 (by decide) (by decide),
   (buffer_vector_layout exHeap exA (by decide)).2.2.2 0 rfl⟩

/-- Claim C9: the copy `B` of a live matrix `A` has the shape and the elements of
`A`; the copy leaves `A` as it was, and afterwards writing an element of `B`
changes no element of `A` and keeps `A` a live object of the same shape (and
the same with the two exchanged). -/
theorem copy_ctor_deep {α : Type} [Zero α] (H : Heap α) (A : Matrix) (hA : A.valid H) :
    ∃ B H1, Matrix.copy_ctor H A = (B, H1) ∧
      B.m_nrow = A.m_nrow ∧ B.m_ncol = A.m_ncol ∧ B.valid H1 ∧ A.valid H1 ∧
      (∀ i j, i < A.m_nrow → j < A.m_ncol →
        B.get H1 i j = A.get H i j ∧ A.get H1 i j = A.get H i j) ∧
      (∀ i j v i1 j1, A.get (B.set H1 i j v) i1 j1 = A.get H1 i1 j1 ∧
        A.valid (B.set H1 i j v)) ∧
      (∀ i j v i1 j1, B.get (A.set H1 i j v) i1 j1 = B.get H1 i1 j1 ∧
        B.valid (A.set H1 i j v)) := by
  obtain ⟨hr, hc, hBv, hAv, hget, hsep, hsep2⟩ :=
    Matrix.reset_buffer_spec ⟨A.m_nrow, A.m_ncol, none⟩ A H hA (Matrix.separate_none A _ _)
      A.m_nrow A.m_ncol
  obtain ⟨hcopy, hframe, hvalid⟩ := Matrix.copy_loop_spec _ A _ hBv hsep
  refine ⟨_, _, Matrix.copy_ctor_eq H A, hr, hc, hvalid _ hBv, hvalid _ hAv, ?_, ?_, ?_⟩
  · intro i j hi hj
    refine ⟨?_, ?_⟩
    · rw [hcopy i j (by rw [hr]; exact hi) (by rw [hc]; exact hj), hget]
    · rw [hframe A hsep, hget]
  · intro i j v i1 j1
    exact ⟨Matrix.set_frame A _ hsep _ i j v i1 j1, Matrix.valid_set A _ _ (hvalid _ hAv) i j v⟩
  · intro i j v i1 j1
    exact ⟨Matrix.set_frame _ A hsep2 _ i j v i1 j1, Matrix.valid_set _ A _ (hvalid _ hBv) i j v⟩

theorem copy_ctor_deep_witness :
    exA.valid exHeap ∧
    ∃ B H1, Matrix.copy_ctor exHeap exA = (B, H1) ∧
      B.m_nrow = exA.m_nrow ∧ B.m_ncol = exA.m_ncol ∧ B.valid H1 ∧ exA.valid H1 ∧
      (∀ i j, i < exA.m_nrow → j < exA.m_ncol →
        B.get H1 i j = exA.get exHeap i j ∧ exA.get H1 i j = exA.get exHeap i j) ∧
      (∀ i j v i1 j1, exA.get (B.set H1 i j v) i1 j1 = exA.get H1 i1 j1 ∧
        exA.valid (B.set H1 i j v)) ∧
      (∀ i j v i1 j1, B.get (exA.set H1 i j v) i1 j1 = B.get H1 i1 j1 ∧
        B.valid (exA.set H1 i j v)) :=
  ⟨by decide, copy_ctor_deep exHeap exA (by decide)⟩

/-- Claim C10: after the copy assignment `X = Y` the target has the shape and the
elements of `Y`, whatever its shape was before, and `Y` is a live object with
the elements it had. -/
theorem assign_copies {α : Type} [Zero α] (H : Heap α) (X Y : Matrix) (same : Bool)
    (hX : X.valid H) (hY : Y.valid H) (hsame : same = true → X = Y)
    (hsep : same = false → X.separate Y) :
    ∃ X1 H1, X.assign H Y same = (X1, H1) ∧
      X1.m_nrow = Y.m_nrow ∧ X1.m_ncol = Y.m_ncol ∧ X1.valid H1 ∧ Y.valid H1 ∧
      ∀ i j, i < Y.m_nrow → j < Y.m_ncol →
        X1.get H1 i j = Y.get H i j ∧ Y.get H1 i j = Y.get H i j := by
  cases same with
  | true =>
    have e := hsame rfl
    subst e
    exact ⟨X, H, rfl, rfl, rfl, hX, hX, fun _ _ _ _ => ⟨rfl, rfl⟩⟩
  | false =>
    have hs := hsep rfl
    by_cases hd : X.m_nrow ≠ Y.m_nrow ∨ X.m_ncol ≠ Y.m_ncol
    · obtain ⟨hr, hc, hXv, hYv, hget, hsep1, _⟩ :=
        Matrix.reset_buffer_spec X Y H hY hs Y.m_nrow Y.m_ncol
      obtain ⟨hcopy, hframe, hvalid⟩ := Matrix.copy_loop_spec _ Y _ hXv hsep1
      refine ⟨(Matrix.reset_buffer X H Y.m_nrow Y.m_ncol).1,
        Matrix.copy_loop (Matrix.reset_buffer X H Y.m_nrow Y.m_ncol).1
          (Matrix.reset_buffer X H Y.m_nrow Y.m_ncol).2 Y, ?_, hr, hc,
        hvalid _ hXv, hvalid _ hYv, ?_⟩
      · simp [Matrix.assign, hd]
      · intro i j hi hj
        refine ⟨?_, ?_⟩
        · rw [hcopy i j (by rw [hr]; exact hi) (by rw [hc]; exact hj), hget]
        · rw [hframe Y hsep1, hget]
    · have hr : X.m_nrow = Y.m_nrow := by
        by_contra e; exact hd (Or.inl e)
      have hc : X.m_ncol = Y.m_ncol := by
        by_contra e; exact hd (Or.inr e)
      obtain ⟨hcopy, hframe, hvalid⟩ := Matrix.copy_loop_spec X Y H hX hs
      refine ⟨X, Matrix.copy_loop X H Y, ?_, hr, hc, hvalid _ hX, hvalid _ hY, ?_⟩
      · simp [Matrix.assign, hd]
      · intro i j hi hj
        exact ⟨hcopy i j (by rw [hr]; exact hi) (by rw [hc]; exact hj), hframe Y hs i j⟩

theorem assign_copies_witness :
    exB.valid exHeap ∧ exA.valid exHeap ∧ exB.separate exA ∧
    ∃ X1 H1, exB.assign exHeap exA false = (X1, H1) ∧
      X1.m_nrow = exA.m_nrow ∧ X1.m_ncol = exA.m_ncol ∧ X1.valid H1 ∧ exA.valid H1 ∧
      ∀ i j, i < exA.m_nrow → j < exA.m_ncol →
        X1.get H1 i j = exA.get exHeap i j ∧ exA.get H1 i j = exA.get exHeap i j :=
  ⟨by decide, by decide, by decide,
   assign_copies exHeap exB exA false (by decide) (by decide)
     (fun h => absurd h (by decide)) (fun _ => by decide)⟩

/-! ## Moves, degenerate tile sizes, traces: lemmas -/

namespace Matrix
variable {α : Type}

theorem move_ctor_eq (H : Heap α) (A : Matrix) :
    move_ctor H A = (⟨A.m_nrow, A.m_ncol, A.m_buffer⟩, ⟨0, 0, none⟩, H) := by
  simp [move_ctor, reset_buffer, release]

theorem move_assign_eq (X : Matrix) (H : Heap α) (A : Matrix) :
    move_assign X H A false =
      (⟨A.m_nrow, A.m_ncol, A.m_buffer⟩, ⟨0, 0, none⟩, X.release H) := by
  simp [move_assign, reset_buffer]

theorem release_spec [Zero α] (X A : Matrix) (H : Heap α) (hA : A.valid H)
    (hsep : X.separate A) :
    A.valid (X.release H) ∧ ∀ i j, A.get (X.release H) i j = A.get H i j := by
  unfold release
  cases hb : X.m_buffer with
  | none => exact ⟨hA, fun _ _ => rfl⟩
  | some a =>
    have hne : A.m_buffer ≠ some a := by
      rcases hsep with h | h
      · rw [hb] at h; exact absurd h (by simp)
      · rw [hb] at h; exact fun e => h e.symm
    exact ⟨valid_free hA a hne, get_free H a hne⟩

end Matrix

theorem forStride_done {σ : Type} (body : Nat → σ → Option σ) (bound step fuel x : Nat)
    (s : σ) (hx : bound ≤ x) : forStride body bound step (fuel + 1) x s = some s := by
  have : ¬ x < bound := by omega
  simp [forStride, this]

/-- With an empty shared dimension the tiled kernel returns the result matrix
as allocated: no element is written. -/
theorem tile_run_empty {α : Type} [Zero α] [Add α] [Mul α] (fuel : Nat) (H : Heap α)
    (A B : Matrix) (tsize : Nat) (h : A.m_ncol = B.m_nrow) (hK : A.m_ncol = 0)
    (ht : 1 ≤ tsize) (hfuel : A.m_nrow < fuel ∧ B.m_ncol < fuel) :
    multiply_tile fuel H A B tsize =
      some (.ok ((Matrix.ctor H A.m_nrow B.m_ncol).1, (Matrix.ctor H A.m_nrow B.m_ncol).2)) := by
  rw [multiply_tile_ok fuel H A B tsize h]
  obtain ⟨f, rfl⟩ : ∃ f, fuel = f + 1 := ⟨fuel - 1, by omega⟩
  have hk : ∀ (rt ct : Nat) (s : Heap α),
      forStride (fun kt H1 =>
            some (forRange rt (min (rt + tsize) A.m_nrow) (fun i H1 =>
              forRange ct (min (ct + tsize) B.m_ncol) (fun j H1 =>
                (Matrix.ctor H A.m_nrow B.m_ncol).1.set H1 i j
                  (forRange kt (min (kt + tsize) A.m_ncol)
                    (fun k v => v + A.get H1 i k * B.get H1 k j) 0)) H1) H1))
            A.m_ncol tsize (f + 1) 0 s = some s := by
    intro rt ct s
    exact forStride_done _ _ _ _ _ _ (by omega)
  obtain ⟨s1, _, he, _, hP⟩ := forStride_inv (fun _ s => s = (Matrix.ctor H A.m_nrow B.m_ncol).2)
    (fun rt H1 =>
        forStride (fun ct H1 =>
          forStride (fun kt H1 =>
            some (forRange rt (min (rt + tsize) A.m_nrow) (fun i H1 =>
              forRange ct (min (ct + tsize) B.m_ncol) (fun j H1 =>
                (Matrix.ctor H A.m_nrow B.m_ncol).1.set H1 i j
                  (forRange kt (min (kt + tsize) A.m_ncol)
                    (fun k v => v + A.get H1 i k * B.get H1 k j) 0)) H1) H1))
            A.m_ncol tsize (f + 1) 0 H1)
          B.m_ncol tsize (f + 1) 0 H1)
    A.m_nrow tsize ht (f + 1) 0 (Matrix.ctor H A.m_nrow B.m_ncol).2 (by omega) (by omega) rfl
    (fun rt s _ _ hs => by
      obtain ⟨s2, _, he2, _, hP2⟩ := forStride_inv
        (fun _ s => s = (Matrix.ctor H A.m_nrow B.m_ncol).2)
        (fun ct H1 =>
          forStride (fun kt H1 =>
            some (forRange rt (min (rt + tsize) A.m_nrow) (fun i H1 =>
              forRange ct (min (ct + tsize) B.m_ncol) (fun j H1 =>
                (Matrix.ctor H A.m_nrow B.m_ncol).1.set H1 i j
                  (forRange kt (min (kt + tsize) A.m_ncol)
                    (fun k v => v + A.get H1 i k * B.get H1 k j) 0)) H1) H1))
            A.m_ncol tsize (f + 1) 0 H1)
        B.m_ncol tsize ht (f + 1) 0 s (by omega) (by omega) hs
        (fun ct s3 _ _ hs3 => ⟨s3, hk rt ct s3, hs3⟩)
      exact ⟨s2, he2, hP2⟩)
  rw [he, hP]
  rfl

/-- On matching shapes `multiply_tile` throws nothing, whatever `tsize`. -/
theorem multiply_tile_no_error {α : Type} [Zero α] [Add α] [Mul α] (fuel : Nat)
    (H : Heap α) (A B : Matrix) (tsize : Nat) (h : A.m_ncol = B.m_nrow)
    (e : Exn × Heap α) : multiply_tile fuel H A B tsize ≠ some (.error e) := by
  intro he
  rw [multiply_tile_ok fuel H A B tsize h] at he
  cases hs : forStride (fun rt H1 =>
    forStride (fun ct H1 =>
      forStride (fun kt H1 =>
        some (forRange rt (min (rt + tsize) A.m_nrow) (fun i H1 =>
          forRange ct (min (ct + tsize) B.m_ncol) (fun j H1 =>
            (Matrix.ctor H A.m_nrow B.m_ncol).1.set H1 i j
              (forRange kt (min (kt + tsize) A.m_ncol)
                (fun k v => v + A.get H1 i k * B.get H1 k j) 0)) H1) H1))
        A.m_ncol tsize fuel 0 H1)
      B.m_ncol tsize fuel 0 H1)
    A.m_nrow tsize fuel 0 (Matrix.ctor H A.m_nrow B.m_ncol).2 with
  | none => rw [hs] at he; simp at he
  | some s => rw [hs] at he; simp at he

/-- The sum for one element of the product with the identity matrix: the
terms before the diagonal leave 0, the diagonal term gives `b i`, the terms
after it leave `b i`. -/
theorem foldl_diag {α : Type} [Zero α] [One α] [Add α] [Mul α]
    (a b : Nat → α) (i n : Nat) (ha : ∀ j, j < n → a j = if i = j then 1 else 0)
    (hb : ∀ j, j < n → 0 + 0 * b j = 0 ∧ 0 + 1 * b j = b j ∧ b i + 0 * b j = b i) :
    ∀ m, m ≤ n →
      (List.range m).foldl (fun v j => v + a j * b j) 0 = if i < m then b i else 0 := by
  intro m
  induction m with
  | zero => intro _; simp
  | succ m ih =>
    intro hm
    rw [List.range_succ, List.foldl_append, ih (by omega)]
    simp only [List.foldl_cons, List.foldl_nil]
    rw [ha m (by omega)]
    obtain ⟨h1, h2, h3⟩ := hb m (by omega)
    by_cases h1m : i < m
    · have hne : i ≠ m := by omega
      simp only [h1m, hne, if_true, if_false, h3]
      rw [if_pos (by omega)]
    · by_cases h2m : i = m
      · subst h2m
        simp [h2]
      · have h3m : ¬ i < m + 1 := by omega
        simp only [h1m, h2m, h3m, if_false, h1]

theorem tile_zero_rows {α : Type} [Zero α] [Add α] [Mul α] (fuel : Nat) (H : Heap α)
    (A B : Matrix) (tsize : Nat) (h : A.m_ncol = B.m_nrow) (hr : A.m_nrow = 0) (hf : 1 ≤ fuel) :
    multiply_tile fuel H A B tsize = some (.ok (⟨0, B.m_ncol, none⟩, H)) := by
  obtain ⟨f, rfl⟩ : ∃ f, fuel = f + 1 := ⟨fuel - 1, by omega⟩
  rw [multiply_tile_ok (f + 1) H A B tsize h, forStride_done _ _ _ _ _ _ (by omega), hr,
    Matrix.ctor_zero H 0 B.m_ncol (by simp)]
  rfl

theorem foldl_ones (a b : Nat → Int) :
    ∀ (l : List Nat) (z : Int), (∀ k ∈ l, a k = 1 ∧ b k = 1) →
      l.foldl (fun v k => v + a k * b k) z = z + l.length := by
  intro l
  induction l with
  | nil => intro z _; simp
  | cons x xs ih =>
    intro z h
    have hx := h x (List.mem_cons_self _ _)
    rw [List.foldl_cons, ih _ (fun k hk => h k (List.mem_cons_of_mem _ hk)), hx.1, hx.2]
    simp only [List.length_cons, Nat.cast_add, Nat.cast_one]
    ring

theorem onesHeap_getA (R K C i k : Nat) (hi : i < R) (hk : k < K) :
    (Matrix.mk R K (some 0)).get (onesHeap R K C) i k = 1 := by
  have hlt : i + k * R < R * K := index_lt hi hk
  simp [Matrix.get, Matrix.index, Heap.read, onesHeap, List.getD_eq_getElem?_getD,
    List.getElem?_replicate, hlt]

theorem onesHeap_getB (R K C k j : Nat) (hk : k < K) (hj : j < C) :
    (Matrix.mk K C (some 1)).get (onesHeap R K C) k j = 1 := by
  have hlt : k + j * K < K * C := index_lt hk hj
  simp [Matrix.get, Matrix.index, Heap.read, onesHeap, List.getD_eq_getElem?_getD,
    List.getElem?_replicate, hlt]

theorem lastStart_pos {K tsize : Nat} (ht : 1 ≤ tsize) (htK : tsize < K) :
    1 ≤ lastStart K tsize := by
  unfold lastStart
  have h1 : 1 ≤ (K - 1) / tsize := (Nat.one_le_div_iff (by omega)).2 (by omega)
  exact Nat.mul_pos (by omega) h1

namespace Matrix
variable {α : Type}

/-- Assigning a sequence of the right length to a live object: the elements
it receives, and what is preserved for every other object. -/
theorem assign_vec_spec [Zero α] (self : Matrix) (H : Heap α) (hv : self.valid H)
    (vec : List α) (h : vec.length = self.m_nrow * self.m_ncol) :
    ∃ H1, assign_vec self H vec = .ok (self, H1) ∧
      (∀ i j, i < self.m_nrow → j < self.m_ncol →
        vec[i * self.m_ncol + j]? = some (self.get H1 i j)) ∧
      (∀ Z : Matrix, Z.valid H → Z.valid H1) ∧
      (∀ Z : Matrix, self.separate Z → ∀ i j, Z.get H1 i j = Z.get H i j) := by
  refine ⟨_, assign_vec_ok self H vec h, ?_⟩
  have hv1 := hv
  unfold valid at hv1
  cases hb : self.m_buffer with
  | none =>
    rw [hb] at hv1
    have e : (forRange 0 self.m_nrow (fun i s =>
        forRange 0 self.m_ncol (fun j (s : Nat × Heap α) =>
          (s.1 + 1, self.set s.2 i j (vec.getD s.1 0))) s) (0, H)).2 = H := by
      refine forRange_inv (fun _ (s : Nat × Heap α) => s.2 = H) _ 0 self.m_nrow
        (Nat.zero_le _) (0, H) rfl ?_
      intro i s _ _ h1
      refine forRange_inv (fun _ (s : Nat × Heap α) => s.2 = H) _ 0 self.m_ncol
        (Nat.zero_le _) s h1 ?_
      intro j s2 _ _ h2
      simp [set, hb, Heap.write, h2]
    rw [e]
    exact ⟨fun i j hi hj => (no_position hv1 hi hj).elim, fun _ hZ => hZ, fun _ _ _ _ => rfl⟩
  | some a =>
    rw [hb] at hv1
    have hfill := assign_vec_fill self a hb H hv1.2 vec
    refine ⟨?_, fun Z hZ => valid_sameExcept hfill.1 hZ, ?_⟩
    · intro i j hi hj
      rw [getD_eq_getElem? vec _ (by rw [h]; exact index_rowmajor_lt hi hj)]
      congr 1
      exact ((hfill.2 i j hi hj).1 trivial).symm
    · intro Z hZ i j
      have hZa : Z.m_buffer ≠ some a := by
        rcases hZ with h1 | h1
        · rw [hb] at h1; exact absurd h1 (by simp)
        · rw [hb] at h1; exact fun e => h1 e.symm
      exact get_sameExcept hfill.1 hZa i j

/-- The constructor from a flat sequence of the right length: what it builds
and what it preserves for every object that was live before. -/
theorem ctor_vec_spec [Zero α] (H : Heap α) (r c : Nat) (v : List α)
    (hv : v.length = r * c) :
    ∃ M H1, ctor_vec H r c v = .ok (M, H1) ∧ M.m_nrow = r ∧ M.m_ncol = c ∧ M.valid H1 ∧
      (∀ i j, i < r → j < c → v[i * c + j]? = some (M.get H1 i j)) ∧
      ∀ Y : Matrix, Y.valid H → Y.valid H1 ∧ ∀ i j, Y.get H1 i j = Y.get H i j := by
  have hs := ctor_shape H r c
  obtain ⟨H1, h1, hel, hval, hfr⟩ := assign_vec_spec (ctor H r c).1 (ctor H r c).2
    (ctor_valid H r c) v (by rw [hs.1, hs.2, hv])
  refine ⟨_, H1, (ctor_vec_eq H r c v).trans h1, hs.1, hs.2, hval _ (ctor_valid H r c), ?_, ?_⟩
  · intro i j hi hj
    have := hel i j (by rw [hs.1]; exact hi) (by rw [hs.2]; exact hj)
    rw [hs.2] at this
    exact this
  · intro Y hY
    obtain ⟨_, _, _, hYv, hget, hsep, _⟩ :=
      reset_buffer_spec ⟨r, c, none⟩ Y H hY (separate_none Y r c) r c
    refine ⟨hval Y hYv, fun i j => ?_⟩
    rw [hfr Y hsep i j]
    exact hget i j

theorem buffer_vector_length [Zero α] (M : Matrix) (H : Heap α) :
    (M.buffer_vector H).length = M.m_nrow * M.m_ncol := by
  simp [buffer_vector, size]

theorem buffer_vector_getElem? [Zero α] (M : Matrix) (H : Heap α) (i j : Nat)
    (hi : i < M.m_nrow) (hj : j < M.m_ncol) :
    (M.buffer_vector H)[i + j * M.m_nrow]? = some (M.get H i j) := by
  have hlt : i + j * M.m_nrow < M.m_nrow * M.m_ncol := index_lt hi hj
  simp [buffer_vector, size, get, index, List.getElem?_map, List.getElem?_range hlt]

end Matrix

theorem loopN_proj {σ τ : Type} (p : τ → σ) (b2 : Nat → τ → τ) (b1 : Nat → σ → σ)
    (h : ∀ i t, p (b2 i t) = b1 i (p t)) :
    ∀ (n i : Nat) (t : τ), p (loopN b2 n i t) = loopN b1 n i (p t) := by
  intro n
  induction n with
  | zero => intro i t; rfl
  | succ n ih => intro i t; simp only [loopN]; rw [ih, h]

/-- A unit-stride loop on a richer state projects to the loop on the projected
state when every iteration does. -/
theorem forRange_proj {σ τ : Type} (p : τ → σ) (b2 : Nat → τ → τ) (b1 : Nat → σ → σ)
    (h : ∀ i t, p (b2 i t) = b1 i (p t)) (lo hi : Nat) (t : τ) :
    p (forRange lo hi b2 t) = forRange lo hi b1 (p t) :=
  loopN_proj p b2 b1 h _ _ _

/-- The same for a strided loop. -/
theorem forStride_proj {σ τ : Type} (p : τ → σ) (b2 : Nat → τ → Option τ)
    (b1 : Nat → σ → Option σ) (h : ∀ i t, (b2 i t).map p = b1 i (p t))
    (bound step : Nat) :
    ∀ (fuel x : Nat) (t : τ),
      (forStride b2 bound step fuel x t).map p = forStride b1 bound step fuel x (p t) := by
  intro fuel
  induction fuel with
  | zero => intro x t; rfl
  | succ fuel ih =>
    intro x t
    simp only [forStride]
    by_cases hx : x < bound
    · simp only [hx, if_true]
      rw [← h x t]
      cases b2 x t with
      | none => rfl
      | some t1 => exact ih (x + step) t1
    · simp only [hx, if_false]
      rfl

theorem multiply_tile_traced_ok {α : Type} [Zero α] [Add α] [Mul α] (fuel : Nat)
    (H : Heap α) (A B : Matrix) (tsize : Nat) (h : A.m_ncol = B.m_nrow) :
    multiply_tile_traced fuel H A B tsize =
      (forStride (fun rt s =>
        forStride (fun ct s =>
          forStride (fun kt s =>
            some (forRange rt (min (rt + tsize) A.m_nrow) (fun i s =>
              forRange ct (min (ct + tsize) B.m_ncol) (fun j (s : Heap α × List Access) =>
                ((Matrix.ctor H A.m_nrow B.m_ncol).1.set s.1 i j
                  (forRange kt (min (kt + tsize) A.m_ncol)
                    (fun k (vl : α × List Access) =>
                      (vl.1 + A.get s.1 i k * B.get s.1 k j,
                       vl.2 ++ [Access.read1 i k, Access.read2 k j])) (0, s.2)).1,
                 (forRange kt (min (kt + tsize) A.m_ncol)
                    (fun k (vl : α × List Access) =>
                      (vl.1 + A.get s.1 i k * B.get s.1 k j,
                       vl.2 ++ [Access.read1 i k, Access.read2 k j])) (0, s.2)).2 ++
                   [Access.write i j])) s) s))
            A.m_ncol tsize fuel 0 s)
          B.m_ncol tsize fuel 0 s)
        A.m_nrow tsize fuel 0 ((Matrix.ctor H A.m_nrow B.m_ncol).2, [])).map
        (fun s => .ok ((Matrix.ctor H A.m_nrow B.m_ncol).1, s.1, s.2)) := by
  simp only [multiply_tile_traced, Matrix.nrow, Matrix.ncol, h, ne_eq, not_true_eq_false,
    if_false]

/-- Dropping the record of accesses from `multiply_tile_traced` gives
`multiply_tile`. -/
theorem multiply_tile_traced_erase {α : Type} [Zero α] [Add α] [Mul α]
    (fuel : Nat) (H : Heap α) (A B : Matrix) (tsize : Nat) :
    (multiply_tile_traced fuel H A B tsize).map
        (fun r => r.map (fun (x : Matrix × Heap α × List Access) => (x.1, x.2.1))) =
      multiply_tile fuel H A B tsize := by
  by_cases h : A.m_ncol = B.m_nrow
  · rw [multiply_tile_traced_ok fuel H A B tsize h, multiply_tile_ok fuel H A B tsize h]
    rw [← forStride_proj (fun (s : Heap α × List Access) => s.1) _ _ ?_ _ _ fuel 0
      ((Matrix.ctor H A.m_nrow B.m_ncol).2, [])]
    · cases forStride _ A.m_nrow tsize fuel 0
        ((Matrix.ctor H A.m_nrow B.m_ncol).2, ([] : List Access)) with
      | none => rfl
      | some s => rfl
    · intro rt s
      refine forStride_proj (fun (s : Heap α × List Access) => s.1) _ _ ?_ _ _ fuel 0 s
      intro ct s
      refine forStride_proj (fun (s : Heap α × List Access) => s.1) _ _ ?_ _ _ fuel 0 s
      intro kt s
      simp only [Option.map_some']
      congr 1
      refine forRange_proj (fun (s : Heap α × List Access) => s.1) _ _ ?_ _ _ s
      intro i s
      refine forRange_proj (fun (s : Heap α × List Access) => s.1) _ _ ?_ _ _ s
      intro j s
      show (Matrix.ctor H A.m_nrow B.m_ncol).1.set s.1 i j _ =
        (Matrix.ctor H A.m_nrow B.m_ncol).1.set s.1 i j _
      congr 1
      exact forRange_proj (fun (vl : α × List Access) => vl.1) _
        (fun k v => v + A.get s.1 i k * B.get s.1 k j) (fun _ _ => rfl) _ _ _
  · have h1 : A.ncol ≠ B.nrow := h
    simp only [multiply_tile_traced, multiply_tile, h1, ne_eq, not_false_eq_true, if_true]
    rfl

/-- A property kept by every iteration of a unit-stride loop holds after it. -/
theorem forRange_pres {σ : Type} (P : σ → Prop) (body : Nat → σ → σ) (lo hi : Nat) (s : σ)
    (h0 : P s) (hstep : ∀ t s, lo ≤ t → t < hi → P s → P (body t s)) :
    P (forRange lo hi body s) := by
  by_cases hle : lo ≤ hi
  · exact forRange_inv (fun _ s => P s) body lo hi hle s h0 hstep
  · rw [forRange_empty _ _ _ (by omega)]
    exact h0

/-- A strided loop with a positive step whose iterations return and keep a
property ends, with the property, once the fuel exceeds the bound. -/
theorem forStride_pres {σ : Type} (P : σ → Prop) (body : Nat → σ → Option σ)
    (bound step : Nat) (hstep : 1 ≤ step) (fuel : Nat) (hfuel : bound < fuel) (s : σ)
    (h0 : P s) (hb : ∀ t s, t < bound → P s → ∃ s1, body t s = some s1 ∧ P s1) :
    ∃ s1, forStride body bound step fuel 0 s = some s1 ∧ P s1 := by
  obtain ⟨s1, _, he, _, hP⟩ := forStride_inv (fun _ s => P s) body bound step hstep fuel 0 s
    (by omega) (by omega) h0 (fun t s _ ht hp => hb t s ht hp)
  exact ⟨s1, he, hP⟩

/-- Every access recorded by `multiply_tile_traced` is in range. -/
theorem multiply_tile_traced_safe {α : Type} [Zero α] [Add α] [Mul α] (fuel : Nat)
    (H : Heap α) (A B : Matrix) (tsize : Nat) (h : A.m_ncol = B.m_nrow) (ht : 1 ≤ tsize)
    (hfuel : A.m_nrow < fuel ∧ B.m_ncol < fuel ∧ A.m_ncol < fuel) :
    ∃ ret H1 log, multiply_tile_traced fuel H A B tsize = some (.ok (ret, H1, log)) ∧
      ∀ a ∈ log, Access.inRange A B a := by
  rw [multiply_tile_traced_ok fuel H A B tsize h]
  obtain ⟨s1, he, hP⟩ := forStride_pres
    (fun (s : Heap α × List Access) => ∀ a ∈ s.2, Access.inRange A B a)
    (fun rt s =>
        forStride (fun ct s =>
          forStride (fun kt s =>
            some (forRange rt (min (rt + tsize) A.m_nrow) (fun i s =>
              forRange ct (min (ct + tsize) B.m_ncol) (fun j (s : Heap α × List Access) =>
                ((Matrix.ctor H A.m_nrow B.m_ncol).1.set s.1 i j
                  (forRange kt (min (kt + tsize) A.m_ncol)
                    (fun k (vl : α × List Access) =>
                      (vl.1 + A.get s.1 i k * B.get s.1 k j,
                       vl.2 ++ [Access.read1 i k, Access.read2 k j])) (0, s.2)).1,
                 (forRange kt (min (kt + tsize) A.m_ncol)
                    (fun k (vl : α × List Access) =>
                      (vl.1 + A.get s.1 i k * B.get s.1 k j,
                       vl.2 ++ [Access.read1 i k, Access.read2 k j])) (0, s.2)).2 ++
                   [Access.write i j])) s) s))
            A.m_ncol tsize fuel 0 s)
          B.m_ncol tsize fuel 0 s)
    A.m_nrow tsize ht fuel hfuel.1 ((Matrix.ctor H A.m_nrow B.m_ncol).2, [])
    (fun a ha => by simp at ha)
    (fun rt s _ hs => forStride_pres (fun (s : Heap α × List Access) => ∀ a ∈ s.2, Access.inRange A B a)
      _ B.m_ncol tsize ht fuel hfuel.2.1 s hs
      (fun ct s _ hs => forStride_pres (fun (s : Heap α × List Access) => ∀ a ∈ s.2, Access.inRange A B a)
        _ A.m_ncol tsize ht fuel hfuel.2.2 s hs
        (fun kt s _ hs => ⟨_, rfl, by
          refine forRange_pres (fun (s : Heap α × List Access) => ∀ a ∈ s.2, Access.inRange A B a)
            _ _ _ s hs ?_
          intro i s _ hi hs
          refine forRange_pres (fun (s : Heap α × List Access) => ∀ a ∈ s.2, Access.inRange A B a)
            _ _ _ s hs ?_
          intro j s _ hj hs
          have hk := forRange_pres
            (fun (vl : α × List Access) => ∀ a ∈ vl.2, Access.inRange A B a)
            (fun k (vl : α × List Access) =>
              (vl.1 + A.get s.1 i k * B.get s.1 k j,
               vl.2 ++ [Access.read1 i k, Access.read2 k j]))
            kt (min (kt + tsize) A.m_ncol) (0, s.2) hs
            (fun k vl _ hk hvl a ha => by
              rcases List.mem_append.1 ha with ha | ha
              · exact hvl a ha
              · simp only [List.mem_cons, List.mem_singleton, List.mem_nil_iff, or_false] at ha
                rcases ha with rfl | rfl
                · exact ⟨by omega, by omega⟩
                · exact ⟨by omega, by omega⟩)
          intro a ha
          rcases List.mem_append.1 ha with ha | ha
          · exact hk a ha
          · simp only [List.mem_singleton] at ha
            subst ha
            exact ⟨by omega, by omega⟩⟩)))
  refine ⟨_, s1.1, s1.2, by rw [he]; rfl, hP⟩

/-! ## The claims, continued -/

/-- Claim C11: moving a live matrix `A`, by the move constructor or by the move
assignment into a distinct live target of any shape, gives the destination the
former shape, buffer and elements of `A` and leaves `A` as the 0 x 0 matrix
with no buffer. -/
theorem move_transfers {α : Type} [Zero α] (H : Heap α) (A : Matrix) (hA : A.valid H) :
    (∃ D S H1, Matrix.move_ctor H A = (D, S, H1) ∧
      D.m_nrow = A.m_nrow ∧ D.m_ncol = A.m_ncol ∧ D.valid H1 ∧
      (∀ i j, i < A.m_nrow → j < A.m_ncol → D.get H1 i j = A.get H i j) ∧
      S = ⟨0, 0, none⟩ ∧ S.valid H1) ∧
    (∀ X : Matrix, X.valid H → X.separate A →
      ∃ D S H1, X.move_assign H A false = (D, S, H1) ∧
        D.m_nrow = A.m_nrow ∧ D.m_ncol = A.m_ncol ∧ D.valid H1 ∧
        (∀ i j, i < A.m_nrow → j < A.m_ncol → D.get H1 i j = A.get H i j) ∧
        S = ⟨0, 0, none⟩ ∧ S.valid H1) := by
  constructor
  · exact ⟨_, _, _, Matrix.move_ctor_eq H A, rfl, rfl, hA, fun _ _ _ _ => rfl, rfl, rfl⟩
  · intro X _ hsep
    obtain ⟨hv, hget⟩ := Matrix.release_spec X A H hA hsep
    exact ⟨_, _, _, Matrix.move_assign_eq X H A, rfl, rfl, hv, fun i j _ _ => hget i j, rfl, rfl⟩

theorem move_transfers_witness :
    exA.valid exHeap ∧ exB.valid exHeap ∧ exB.separate exA ∧
    (∃ D S H1, Matrix.move_ctor exHeap exA = (D, S, H1) ∧
      D.m_nrow = exA.m_nrow ∧ D.m_ncol = exA.m_ncol ∧ D.valid H1 ∧
      (∀ i j, i < exA.m_nrow → j < exA.m_ncol → D.get H1 i j = exA.get exHeap i j) ∧
      S = ⟨0, 0, none⟩ ∧ S.valid H1) ∧
    (∃ D S H1, exB.move_assign exHeap exA false = (D, S, H1) ∧
      D.m_nrow = exA.m_nrow ∧ D.m_ncol = exA.m_ncol ∧ D.valid H1 ∧
      (∀ i j, i < exA.m_nrow → j < exA.m_ncol → D.get H1 i j = exA.get exHeap i j) ∧
      S = ⟨0, 0, none⟩ ∧ S.valid H1) :=
  ⟨by decide, by decide, by decide, (move_transfers exHeap exA (by decide)).1,
   (move_transfers exHeap exA (by decide)).2 exB (by decide) (by decide)⟩

/-- Claim C12, where it fails: on operands without rows (`A` of shape 0 x 3,
`B` of shape 3 x 2, so `A.ncol = B.nrow`) `multiply_tile` with `tsize = 0`
enters no loop and returns the 0 x 2 matrix: it does not fail. -/
theorem multiply_tile_zero_counterexample :
    (Matrix.mk 0 3 none).valid emptyHeap ∧
    (Matrix.mk 0 3 none).m_ncol = (Matrix.mk 3 2 none).m_nrow ∧
    (multiply_tile 1 emptyHeap ⟨0, 3, none⟩ ⟨3, 2, none⟩ 0).map
        (fun r => match r with
          | .ok x => some (x.1.m_nrow, x.1.m_ncol, x.1.rows x.2)
          | .error _ => none) = some (some (0, 2, [])) := by
  decide

/-- Claim C12 as amended: when `A.ncol = B.nrow`, `multiply_tile(A, B, 0)` does
not fail with an invalid-argument error, nor with any other: the source has no
check of `tsize`. With `A.nrow = 0` it returns the `0 x B.ncol` matrix without
a buffer. -/
theorem multiply_tile_zero_tsize {α : Type} [Zero α] [Add α] [Mul α] (H : Heap α)
    (A B : Matrix) (h : A.m_ncol = B.m_nrow) :
    (∀ fuel e, multiply_tile fuel H A B 0 ≠ some (.error e)) ∧
    (A.m_nrow = 0 → ∀ fuel, 1 ≤ fuel →
      multiply_tile fuel H A B 0 = some (.ok (⟨0, B.m_ncol, none⟩, H))) :=
  ⟨fun fuel e => multiply_tile_no_error fuel H A B 0 h e,
   fun hr fuel hf => tile_zero_rows fuel H A B 0 h hr hf⟩

theorem multiply_tile_zero_tsize_witness :
    exA.m_ncol = exB.m_nrow ∧
    (∀ fuel e, multiply_tile fuel exHeap exA exB 0 ≠ some (.error e)) ∧
    (∀ fuel, 1 ≤ fuel →
      multiply_tile fuel emptyHeap ⟨0, 3, none⟩ ⟨3, 2, none⟩ 0 =
        some (.ok (⟨0, 2, none⟩, emptyHeap))) :=
  ⟨by decide, (multiply_tile_zero_tsize exHeap exA exB (by decide)).1,
   (multiply_tile_zero_tsize emptyHeap ⟨0, 3, none⟩ ⟨3, 2, none⟩ (by decide)).2 (by decide)⟩

/-- Claim C13, evaluated where it fails: for the live operands `A` of shape
2 x 0 and `B` of shape 0 x 2 and `tsize = 1` the four elements of the result of
`multiply_tile` are never written and hold what the allocation left there (1 in
`emptyHeap`), not zero; in general, with an empty shared dimension every
element is the content of the newly allocated cell at its offset. -/
theorem multiply_tile_empty_inner_junk :
    ((Matrix.mk 2 0 none).valid emptyHeap ∧ (Matrix.mk 0 2 none).valid emptyHeap ∧
      (multiply_tile 3 emptyHeap ⟨2, 0, none⟩ ⟨0, 2, none⟩ 1).map result_rows =
        some (some [[1, 1], [1, 1]])) ∧
    (∀ {α : Type} [Zero α] [Add α] [Mul α] (fuel : Nat) (H : Heap α) (A B : Matrix)
        (tsize : Nat),
      A.m_ncol = B.m_nrow → A.m_ncol = 0 → 1 ≤ tsize → A.m_nrow < fuel → B.m_ncol < fuel →
      ∃ ret H1, multiply_tile fuel H A B tsize = some (.ok (ret, H1)) ∧
        ret.m_nrow = A.m_nrow ∧ ret.m_ncol = B.m_ncol ∧
        ∀ i j, i < A.m_nrow → j < B.m_ncol →
          ret.get H1 i j = H.uninit H.next (i + j * A.m_nrow)) := by
  refine ⟨by decide, ?_⟩
  intro α _ _ _ fuel H A B tsize h hK ht f1 f2
  refine ⟨_, _, tile_run_empty fuel H A B tsize h hK ht ⟨f1, f2⟩, ?_⟩
  by_cases hz : A.m_nrow * B.m_ncol = 0
  · rw [Matrix.ctor_zero H _ _ hz]
    exact ⟨rfl, rfl, fun i j hi hj => (Matrix.no_position hz hi hj).elim⟩
  · rw [Matrix.ctor_pos H _ _ hz]
    refine ⟨rfl, rfl, ?_⟩
    intro i j hi hj
    have hlt := index_lt hi hj
    simp [Matrix.get, Matrix.index, Heap.read, Heap.alloc, List.getD_eq_getElem?_getD,
      List.getElem?_map, List.getElem?_range hlt]

/-- Claim C14: when `A.ncol = B.nrow` and `tsize >= 1`, whatever the shapes,
`multiply_tile` ends (given fuel above the three dimensions) and every element
access it made is in range: each read `A(i, k)` has `i < A.nrow` and
`k < A.ncol`, each read `B(k, j)` has `k < B.nrow` and `j < B.ncol`, each write
`C(i, j)` has `i < A.nrow` and `j < B.ncol`. -/
theorem multiply_tile_in_range {α : Type} [Zero α] [Add α] [Mul α] (fuel : Nat)
    (H : Heap α) (A B : Matrix) (tsize : Nat) (h : A.m_ncol = B.m_nrow) (ht : 1 ≤ tsize)
    (hfuel : A.m_nrow < fuel ∧ B.m_ncol < fuel ∧ A.m_ncol < fuel) :
    ∃ ret H1 log, multiply_tile_traced fuel H A B tsize = some (.ok (ret, H1, log)) ∧
      multiply_tile fuel H A B tsize = some (.ok (ret, H1)) ∧
      ∀ a ∈ log, match a with
        | .read1 i k => i < A.m_nrow ∧ k < A.m_ncol
        | .read2 k j => k < B.m_nrow ∧ j < B.m_ncol
        | .write i j => i < A.m_nrow ∧ j < B.m_ncol := by
  obtain ⟨ret, H1, log, he, hlog⟩ := multiply_tile_traced_safe fuel H A B tsize h ht hfuel
  refine ⟨ret, H1, log, he, ?_, ?_⟩
  · rw [← multiply_tile_traced_erase fuel H A B tsize, he]
    rfl
  · intro a ha
    have := hlog a ha
    cases a <;> exact this

theorem multiply_tile_in_range_witness :
    exA.m_ncol = exB.m_nrow ∧ 1 ≤ 2 ∧ (exA.m_nrow < 4 ∧ exB.m_ncol < 4 ∧ exA.m_ncol < 4) ∧
    ∃ ret H1 log, multiply_tile_traced 4 exHeap exA exB 2 = some (.ok (ret, H1, log)) ∧
      multiply_tile 4 exHeap exA exB 2 = some (.ok (ret, H1)) ∧
      ∀ a ∈ log, match a with
        | .read1 i k => i < exA.m_nrow ∧ k < exA.m_ncol
        | .read2 k j => k < exB.m_nrow ∧ j < exB.m_ncol
        | .write i j => i < exA.m_nrow ∧ j < exB.m_ncol :=
  ⟨by decide, by decide, by decide,
   multiply_tile_in_range 4 exHeap exA exB 2 (by decide) (by decide) (by decide)⟩

/-- The record of accesses on two small inputs: a 1 x 1 by 1 x 1 product makes
two reads and one write, and the 2 x 3 by 3 x 2 example with `tsize = 2` makes
32 accesses (two tiles of the shared dimension for each of the 4 elements). -/
theorem multiply_tile_traced_example :
    (multiply_tile_traced 2 emptyHeap ⟨1, 1, none⟩ ⟨1, 1, none⟩ 1).map
        (fun r => match r with
          | .ok x => x.2.2
          | .error _ => []) =
      some [Access.read1 0 0, Access.read2 0 0, Access.write 0 0] ∧
    (multiply_tile_traced 4 exHeap exA exB 2).map
        (fun r => match r with
          | .ok x => x.2.2.length
          | .error _ => 0) = some 32 := by
  decide

/-- Claim C15, where it fails: with the 2 x 2 identity matrix `I` and the matrix
`B` with rows (+infinity, 6), (2, 8), element (1, 0) of `multiply_naive(I, B)`
is `0 * inf + 1 * 2`, which is NaN and not the element 2 of `B`. -/
theorem multiply_naive_identity_counterexample :
    idI.valid infHeap ∧ idB.valid infHeap ∧
    idI.rows infHeap = [[1, 0], [0, 1]] ∧
    idB.rows infHeap = [[Dbl.pinf, Dbl.fin 6], [Dbl.fin 2, Dbl.fin 8]] ∧
    result_rows (multiply_naive infHeap idI idB) =
      some [[Dbl.pinf, Dbl.fin 6], [Dbl.nan, Dbl.fin 8]] := by
  decide

/-- Claim C15 as amended: for the `n x n` matrix `I` with ones on the diagonal
and zeros elsewhere and every matrix `B` with `n` rows whose elements `x`, `y`
(of one column) satisfy `0 + 0 * x = 0`, `0 + 1 * x = x` and `x + 0 * y = x`,
as finite doubles other than negative zero do, `multiply_naive(I, B)` has the
shape of `B` and the element of `B` at every position. -/
theorem multiply_naive_identity {α : Type} [Zero α] [One α] [Add α] [Mul α]
    (H : Heap α) (I B : Matrix) (n : Nat) (hI : I.valid H) (hB : B.valid H)
    (hIr : I.m_nrow = n) (hIc : I.m_ncol = n) (hBr : B.m_nrow = n)
    (hid : ∀ i j, i < n → j < n → I.get H i j = if i = j then 1 else 0)
    (hel : ∀ i j k, i < n → j < n → k < B.m_ncol →
      0 + 0 * B.get H j k = 0 ∧ 0 + 1 * B.get H j k = B.get H j k ∧
      B.get H i k + 0 * B.get H j k = B.get H i k) :
    ∃ ret H1, multiply_naive H I B = .ok (ret, H1) ∧
      ret.m_nrow = B.m_nrow ∧ ret.m_ncol = B.m_ncol ∧
      ∀ i k, i < B.m_nrow → k < B.m_ncol → ret.get H1 i k = B.get H i k := by
  obtain ⟨ret, H1, he, hr, hc, hdot⟩ := naive_run H I B hI hB (by rw [hIc, hBr])
  refine ⟨ret, H1, he, by rw [hr, hIr, hBr], hc, ?_⟩
  intro i k hi hk
  rw [hBr] at hi
  rw [hdot i k (by rw [hIr]; exact hi) hk, dot, hIc,
    foldl_diag (fun j => I.get H i j) (fun j => B.get H j k) i n
      (fun j hj => hid i j hi hj) (fun j hj => hel i j k hi hj hk) n (le_refl _)]
  simp [hi]

theorem multiply_naive_identity_witness :
    idI.valid idHeapD ∧ idB.valid idHeapD ∧
    (∀ i j, i < 2 → j < 2 → idI.get idHeapD i j = if i = j then 1 else 0) ∧
    (∀ i j k, i < 2 → j < 2 → k < idB.m_ncol →
      0 + 0 * idB.get idHeapD j k = 0 ∧ 0 + 1 * idB.get idHeapD j k = idB.get idHeapD j k ∧
      idB.get idHeapD i k + 0 * idB.get idHeapD j k = idB.get idHeapD i k) ∧
    ∃ ret H1, multiply_naive idHeapD idI idB = .ok (ret, H1) ∧
      ret.m_nrow = idB.m_nrow ∧ ret.m_ncol = idB.m_ncol ∧
      ∀ i k, i < idB.m_nrow → k < idB.m_ncol → ret.get H1 i k = idB.get idHeapD i k :=
  ⟨by decide, by decide,
   fun i j hi hj => by interval_cases i <;> interval_cases j <;> decide,
   fun i j k hi hj hk => by
     have hk2 : k < 2 := hk
     interval_cases i <;> interval_cases j <;> interval_cases k <;> decide,
   multiply_naive_identity idHeapD idI idB 2 (by decide) (by decide) rfl rfl rfl
     (fun i j hi hj => by interval_cases i <;> interval_cases j <;> decide)
     (fun i j k hi hj hk => by
       have hk2 : k < 2 := hk
       interval_cases i <;> interval_cases j <;> interval_cases k <;> decide)⟩

/-- The third end-to-end scenario of the specification, evaluated. -/
theorem multiply_naive_identity_example :
    result_rows (multiply_naive idHeap idI idB) = some [[5, 6], [7, 8]] := by
  decide

/-- The tiled kernel on the example with `tsize = 2`: only the products with
`k = 2` are left. -/
theorem multiply_tile_example_two :
    (multiply_tile 4 exHeap exA exB 2).map result_rows = some (some [[33, 36], [66, 72]]) := by
  decide

/-- Claim C18: for every shape whose product `nrow * ncol` is a value of
`size_t`, `index(i, j) = i + j * nrow` maps the valid positions one-to-one onto
the offsets below `nrow * ncol`: the offset of a valid position is below
`nrow * ncol` (so its computation in `size_t` does not wrap), two different
valid positions get different offsets, and every offset below `nrow * ncol`
is hit. -/
theorem index_bijective (M : Matrix) (hb : M.m_nrow * M.m_ncol < 2 ^ 64) :
    (∀ i j, i < M.m_nrow → j < M.m_ncol →
      M.index i j < M.m_nrow * M.m_ncol ∧ (i + j * M.m_nrow) % 2 ^ 64 = M.index i j) ∧
    (∀ i j i1 j1, i < M.m_nrow → j < M.m_ncol → i1 < M.m_nrow → j1 < M.m_ncol →
      ¬ (i = i1 ∧ j = j1) → M.index i j ≠ M.index i1 j1) ∧
    (∀ t, t < M.m_nrow * M.m_ncol →
      ∃ i j, i < M.m_nrow ∧ j < M.m_ncol ∧ M.index i j = t) := by
  refine ⟨fun i j hi hj => ⟨index_lt hi hj, ?_⟩, ?_, ?_⟩
  · have hlt : i + j * M.m_nrow < M.m_nrow * M.m_ncol := index_lt hi hj
    exact Nat.mod_eq_of_lt (by omega)
  · intro i j i1 j1 hi _ hi1 _ hne h
    exact hne (index_inj hi hi1 h)
  · intro t ht
    obtain ⟨h1, h2, h3⟩ := Matrix.offset_split ht
    exact ⟨t % M.m_nrow, t / M.m_nrow, h1, h2, h3⟩

theorem index_bijective_witness :
    exA.m_nrow * exA.m_ncol < 2 ^ 64 ∧
    (exA.index 1 2 < exA.m_nrow * exA.m_ncol ∧ (1 + 2 * exA.m_nrow) % 2 ^ 64 = exA.index 1 2) ∧
    exA.index 0 1 ≠ exA.index 1 0 ∧
    ∃ i j, i < exA.m_nrow ∧ j < exA.m_ncol ∧ exA.index i j = 5 :=
  ⟨by decide, (index_bijective exA (by decide)).1 1 2 (by decide) (by decide),
   (index_bijective exA (by decide)).2.1 0 1 1 0 (by decide) (by decide) (by decide)
     (by decide) (by decide),
   (index_bijective exA (by decide)).2.2 5 (by decide)⟩

/-- Claim C19: on a live matrix, after the write `M(i, j) = v` at a valid position
the read `M(i, j)` returns `v`, the read at every other valid position returns
what it returned before, and the object (a write changes cells of the buffer
only, not `m_nrow`, `m_ncol` or `m_buffer`) is still a live object. -/
theorem set_get_frame {α : Type} [Zero α] (H : Heap α) (M : Matrix) (hM : M.valid H)
    (i j : Nat) (hi : i < M.m_nrow) (hj : j < M.m_ncol) (v : α) :
    M.get (M.set H i j v) i j = v ∧
    (∀ i1 j1, i1 < M.m_nrow → j1 < M.m_ncol → ¬ (i1 = i ∧ j1 = j) →
      M.get (M.set H i j v) i1 j1 = M.get H i1 j1) ∧
    M.valid (M.set H i j v) := by
  have hv := hM
  unfold Matrix.valid at hv
  cases hb : M.m_buffer with
  | none =>
    rw [hb] at hv
    exact (Matrix.no_position hv hi hj).elim
  | some a =>
    rw [hb] at hv
    refine ⟨Matrix.get_set_same M a hb H hv.2 i j hi hj v, ?_,
      Matrix.valid_set M M H hM i j v⟩
    intro i1 j1 hi1 _ hne
    exact Matrix.get_set_other M a hb H i j i1 j1 hi hi1 hne v

theorem set_get_frame_witness :
    exA.valid exHeap ∧ 1 < exA.m_nrow ∧ 2 < exA.m_ncol ∧
    (exA.get (exA.set exHeap 1 2 9) 1 2 = 9 ∧
    (∀ i1 j1, i1 < exA.m_nrow → j1 < exA.m_ncol → ¬ (i1 = 1 ∧ j1 = 2) →
      exA.get (exA.set exHeap 1 2 9) i1 j1 = exA.get exHeap i1 j1) ∧
    exA.valid (exA.set exHeap 1 2 9)) :=
  ⟨by decide, by decide, by decide,
   set_get_frame exHeap exA (by decide) 1 2 (by decide) (by decide) 9⟩

/-- Claim C20: for a flat sequence `v` of length `r * c`, building
`M = Matrix(r, c, v)` and then `T = Matrix(c, r, M.buffer_vector())` gives the
transpose, `T(j, i) = M(i, j)` at every valid position (with `M` unchanged by
the second construction), and `T.buffer_vector()` is `v` again. -/
theorem buffer_vector_transpose {α : Type} [Zero α] (H : Heap α) (r c : Nat) (v : List α)
    (hv : v.length = r * c) :
    ∃ M H1 T H2, Matrix.ctor_vec H r c v = .ok (M, H1) ∧
      Matrix.ctor_vec H1 c r (M.buffer_vector H1) = .ok (T, H2) ∧
      T.m_nrow = c ∧ T.m_ncol = r ∧
      (∀ i j, i < r → j < c →
        T.get H2 j i = M.get H1 i j ∧ M.get H2 i j = M.get H1 i j) ∧
      T.buffer_vector H2 = v := by
  obtain ⟨M, H1, e1, hMr, hMc, hMv, hMel, _⟩ := Matrix.ctor_vec_spec H r c v hv
  obtain ⟨T, H2, e2, hTr, hTc, _, hTel, hTfr⟩ := Matrix.ctor_vec_spec H1 c r
    (M.buffer_vector H1) (by rw [Matrix.buffer_vector_length, hMr, hMc, Nat.mul_comm])
  have htr : ∀ i j, i < r → j < c → T.get H2 j i = M.get H1 i j := by
    intro i j hi hj
    have h1 := hTel j i hj hi
    have h2 := Matrix.buffer_vector_getElem? M H1 i j (by rw [hMr]; exact hi)
      (by rw [hMc]; exact hj)
    rw [hMr] at h2
    rw [Nat.add_comm, h2] at h1
    exact (Option.some.inj h1).symm
  refine ⟨M, H1, T, H2, e1, e2, hTr, hTc, ?_, ?_⟩
  · intro i j hi hj
    exact ⟨htr i j hi hj, (hTfr M hMv).2 i j⟩
  · apply List.ext_getElem?
    intro t
    by_cases ht : t < c * r
    · obtain ⟨h1, h2, h3⟩ := Matrix.offset_split ht
      have hb := Matrix.buffer_vector_getElem? T H2 (t % c) (t / c)
        (by rw [hTr]; exact h1) (by rw [hTc]; exact h2)
      rw [hTr, h3] at hb
      have hm := hMel (t / c) (t % c) h2 h1
      rw [Nat.add_comm, h3] at hm
      rw [hb, hm, htr (t / c) (t % c) h2 h1]
    · have l1 : (T.buffer_vector H2).length ≤ t := by
        rw [Matrix.buffer_vector_length, hTr, hTc]; omega
      have l2 : v.length ≤ t := by rw [hv, Nat.mul_comm]; omega
      rw [List.getElem?_eq_none l1, List.getElem?_eq_none l2]

theorem buffer_vector_transpose_witness :
    exV.length = 2 * 3 ∧
    ∃ M H1 T H2, Matrix.ctor_vec emptyHeap 2 3 exV = .ok (M, H1) ∧
      Matrix.ctor_vec H1 3 2 (M.buffer_vector H1) = .ok (T, H2) ∧
      T.m_nrow = 3 ∧ T.m_ncol = 2 ∧
      (∀ i j, i < 2 → j < 3 →
        T.get H2 j i = M.get H1 i j ∧ M.get H2 i j = M.get H1 i j) ∧
      T.buffer_vector H2 = exV :=
  ⟨by decide, buffer_vector_transpose emptyHeap 2 3 exV (by decide)⟩

end Hw3
